import Mathlib

/-!
# Verification of the TanStack-AI streaming normalization layer

Shallow embedding of the streaming adapters and the chat client of the
`tanstack-ai` repository, together with proofs about the claims of its
specification.

Embedded code:
* `packages/typescript/ai-groq/src/adapters/text.ts`
  (`GroqTextAdapter.chatStream` / `processGroqStreamChunks`)
* `packages/ai-openai/src/openai-adapter.ts` (`chatStream`, text part)
* `packages/typescript/ai-client/src/chat-client.ts`
  (`shouldAutoSend`, `addToolResult`, `addToolApprovalResponse`, and the
  stream-processor handlers `onTextUpdate`, `onToolCallStateChange`,
  `onToolResultStateChange`, `onApprovalRequested`, `onToolInputAvailable`)

JavaScript semantics conventions used throughout:
* optional string fields that the source only tests for truthiness are
  modelled as plain `String`, with `""` standing for `undefined`/absent
  (in JS both `undefined` and `""` are falsy, and `s += ""` is a no-op);
* `x || y` on strings is `if x = "" then y else x`;
* `JSON.parse` is modelled by the executable parser `jsonParse` below.
-/

/-! ## JSON values and `JSON.parse`

`Json` models a JavaScript value produced by `JSON.parse`.  Numbers keep
their source lexeme (no floating point arithmetic is performed on them
anywhere in the embedded code).  Object fields keep insertion order, as
JS objects do. -/

inductive Json where
  | null : Json
  | bool (b : Bool) : Json
  | num (lexeme : String) : Json
  | str (s : String) : Json
  | arr (elems : List Json) : Json
  | obj (fields : List (String × Json)) : Json
deriving Repr

namespace JsonParse

def isWs (c : Char) : Bool :=
  c = ' ' || c = '\t' || c = '\n' || c = '\r'

def skipWs : List Char → List Char
  | [] => []
  | c :: cs => if isWs c then skipWs cs else c :: cs

def isDigit (c : Char) : Bool := '0' ≤ c && c ≤ '9'

def hexVal (c : Char) : Option Nat :=
  let n := c.toNat
  if 48 ≤ n && n ≤ 57 then some (n - 48)
  else if 97 ≤ n && n ≤ 102 then some (n - 87)
  else if 65 ≤ n && n ≤ 70 then some (n - 55)
  else none

/-- Characters of a JSON string literal after the opening quote
(fueled: the fuel bounds the number of remaining input characters).
Returns the decoded characters and the remaining input after the
closing quote.  Raw control characters below U+0020 are rejected,
as `JSON.parse` rejects them. -/
def parseStrCharsF : Nat → List Char → Option (List Char × List Char)
  | 0, _ => none
  | _, [] => none
  | fuel + 1, c :: cs =>
    if c = '"' then some ([], cs)
    else if c = '\\' then
      match cs with
      | [] => none
      | e :: cs2 =>
        let dec : Option (Char × List Char) :=
          if e = '"' then some ('"', cs2)
          else if e = '\\' then some ('\\', cs2)
          else if e = '/' then some ('/', cs2)
          else if e = 'b' then some ('\x08', cs2)
          else if e = 'f' then some ('\x0c', cs2)
          else if e = 'n' then some ('\n', cs2)
          else if e = 'r' then some ('\r', cs2)
          else if e = 't' then some ('\t', cs2)
          else if e = 'u' then
            match cs2 with
            | h1 :: h2 :: h3 :: h4 :: cs3 =>
              match hexVal h1, hexVal h2, hexVal h3, hexVal h4 with
              | some a, some b, some c', some d =>
                some (Char.ofNat (((a * 16 + b) * 16 + c') * 16 + d), cs3)
              | _, _, _, _ => none
            | _ => none
          else none
        match dec with
        | none => none
        | some (ch, rest) =>
          match parseStrCharsF fuel rest with
          | none => none
          | some (tail, rest2) => some (ch :: tail, rest2)
    else if c.toNat < 32 then none
    else
      match parseStrCharsF fuel cs with
      | none => none
      | some (tail, rest) => some (c :: tail, rest)

/-- String-literal body parser with always-sufficient fuel: a string
literal consumes at least one input character per produced character,
so `length + 1` fuel never runs out before the input does. -/
def parseStrChars (cs : List Char) : Option (List Char × List Char) :=
  parseStrCharsF (cs.length + 1) cs

/-- A run of decimal digits (possibly empty): returns them and the rest. -/
def takeDigits : List Char → List Char × List Char
  | [] => ([], [])
  | c :: cs =>
    if isDigit c then
      let (ds, rest) := takeDigits cs
      (c :: ds, rest)
    else ([], c :: cs)

/-- JSON number grammar: `-? (0 | [1-9][0-9]*) (\.[0-9]+)? ([eE][+-]?[0-9]+)?`.
Returns the lexeme and the remaining input. -/
def parseNumber (input : List Char) : Option (List Char × List Char) :=
  let (sign, afterSign) :=
    match input with
    | '-' :: cs => (['-'], cs)
    | cs => (([] : List Char), cs)
  match afterSign with
  | [] => none
  | c :: cs =>
    if c = '0' then
      some (sign ++ ['0'], cs)
    else if isDigit c then
      let (ds, rest) := takeDigits cs
      some (sign ++ c :: ds, rest)
    else none
  |>.bind fun (intPart, rest) =>
    let (fracPart, rest2) :=
      match rest with
      | '.' :: cs =>
        match takeDigits cs with
        | ([], _) => (none, rest)
        | (ds, r) => (some ('.' :: ds), r)
      | _ => (none, rest)
    match fracPart with
    | none =>
      match rest with
      | '.' :: _ => none
      | _ => some (intPart, rest2)
    | some f => some (intPart ++ f, rest2)
  |>.bind fun (mant, rest) =>
    match rest with
    | e :: cs =>
      if e = 'e' || e = 'E' then
        let (es, afterES) :=
          match cs with
          | '+' :: cs2 => (['+'], cs2)
          | '-' :: cs2 => (['-'], cs2)
          | cs2 => (([] : List Char), cs2)
        match takeDigits afterES with
        | ([], _) => none
        | (ds, r) => some (mant ++ e :: es ++ ds, r)
      else some (mant, rest)
    | [] => some (mant, rest)

mutual

/-- One JSON value (leading whitespace allowed), fueled recursion. -/
def parseValue : Nat → List Char → Option (Json × List Char)
  | 0, _ => none
  | fuel + 1, input =>
    match skipWs input with
    | 'n' :: 'u' :: 'l' :: 'l' :: rest => some (Json.null, rest)
    | 't' :: 'r' :: 'u' :: 'e' :: rest => some (Json.bool true, rest)
    | 'f' :: 'a' :: 'l' :: 's' :: 'e' :: rest => some (Json.bool false, rest)
    | '"' :: rest =>
      match parseStrChars rest with
      | none => none
      | some (chars, rest2) => some (Json.str (String.mk chars), rest2)
    | '[' :: rest =>
      match skipWs rest with
      | ']' :: rest2 => some (Json.arr [], rest2)
      | other =>
        match parseElems fuel other with
        | none => none
        | some (elems, rest2) => some (Json.arr elems, rest2)
    | '{' :: rest =>
      match skipWs rest with
      | '}' :: rest2 => some (Json.obj [], rest2)
      | other =>
        match parseMembers fuel other with
        | none => none
        | some (fields, rest2) => some (Json.obj fields, rest2)
    | other =>
      match parseNumber other with
      | none => none
      | some (lexeme, rest) => some (Json.num (String.mk lexeme), rest)

/-- Non-empty `,`-separated element list of an array, up to and
including the closing `]`. -/
def parseElems : Nat → List Char → Option (List Json × List Char)
  | 0, _ => none
  | fuel + 1, input =>
    match parseValue fuel input with
    | none => none
    | some (v, rest) =>
      match skipWs rest with
      | ',' :: rest2 =>
        match parseElems fuel rest2 with
        | none => none
        | some (vs, rest3) => some (v :: vs, rest3)
      | ']' :: rest2 => some ([v], rest2)
      | _ => none

/-- Non-empty `,`-separated member list of an object, up to and
including the closing `}`. -/
def parseMembers : Nat → List Char → Option (List (String × Json) × List Char)
  | 0, _ => none
  | fuel + 1, input =>
    match skipWs input with
    | '"' :: rest =>
      match parseStrChars rest with
      | none => none
      | some (keyChars, rest2) =>
        match skipWs rest2 with
        | ':' :: rest3 =>
          match parseValue fuel rest3 with
          | none => none
          | some (v, rest4) =>
            match skipWs rest4 with
            | ',' :: rest5 =>
              match parseMembers fuel rest5 with
              | none => none
              | some (fields, rest6) =>
                some ((String.mk keyChars, v) :: fields, rest6)
            | '}' :: rest5 => some ([(String.mk keyChars, v)], rest5)
            | _ => none
        | _ => none
    | _ => none

end

end JsonParse

/-- Model of `JSON.parse(s)`: `some v` when parsing succeeds, `none`
when `JSON.parse` throws.  Trailing whitespace is allowed, trailing
garbage is not. -/
def jsonParse (s : String) : Option Json :=
  match JsonParse.parseValue (s.length * 2 + 4) s.toList with
  | none => none
  | some (v, rest) =>
    match JsonParse.skipWs rest with
    | [] => some v
    | _ => none

example : jsonParse "\x7b\"a\":1\x7d" = some (Json.obj [("a", Json.num "1")]) := by rfl
example : jsonParse ":1\x7d" = none := by rfl
example : jsonParse "\x7b\"city\":\"nyc\"\x7d" =
    some (Json.obj [("city", Json.str "nyc")]) := by rfl
example : jsonParse "" = none := by rfl
example : jsonParse " [1, true, null] " =
    some (Json.arr [Json.num "1", Json.bool true, Json.null]) := by rfl
example : jsonParse "\x7b\"a\":" = none := by rfl
example : jsonParse "\x7b\x7d" = some (Json.obj []) := by rfl

/-! ## Groq text adapter
(`packages/typescript/ai-groq/src/adapters/text.ts`)

Vendor-side data: one SDK `ChatCompletionChunk` and its parts, with the
JS-truthiness conventions from the header comment. -/

namespace Groq

/-- `toolCallDelta` entry of `delta.tool_calls` (`index`, optional `id`,
optional `function.name` / `function.arguments`; `""` = absent). -/
structure ToolCallDelta where
  index : Nat
  id : String
  fname : String
  fargs : String
deriving Repr, DecidableEq

/-- `choice.delta`. -/
structure Delta where
  content : String
  tool_calls : List ToolCallDelta
deriving Repr, DecidableEq

/-- Vendor finish reason of a Groq chunk choice. -/
inductive GroqFinishReason where
  | stop
  | length
  | tool_calls
  | content_filter
  | function_call
deriving Repr, DecidableEq

/-- `chunk.x_groq.usage` (fields optional, `|| 0` applied on use). -/
structure GroqUsage where
  prompt_tokens : Option Nat
  completion_tokens : Option Nat
  total_tokens : Option Nat
deriving Repr, DecidableEq

/-- `chunk.choices[i]`. -/
structure Choice where
  delta : Delta
  finish_reason : Option GroqFinishReason
deriving Repr, DecidableEq

/-- One vendor chunk yielded by the SDK stream. -/
structure Chunk where
  model : String
  choices : List Choice
  usage : Option GroqUsage
deriving Repr, DecidableEq

/-- A thrown JS error (`err.message`, `err.code`). -/
structure GroqError where
  message : String
  code : Option String
deriving Repr, DecidableEq

/-- Canonical finish reason carried by `RUN_FINISHED`. -/
inductive CanonReason where
  | stop
  | length
  | content_filter
  | tool_calls
deriving Repr, DecidableEq

/-- Usage record of a `RUN_FINISHED` event. -/
structure UsageOut where
  promptTokens : Nat
  completionTokens : Nat
  totalTokens : Nat
deriving Repr, DecidableEq

/-- The AG-UI stream events yielded by `chatStream`, with the fields each
event carries in the source. -/
inductive Evt where
  | runStarted (runId model : String) (timestamp : Nat)
  | textMessageStart (messageId model : String) (timestamp : Nat)
  | textMessageContent (messageId model : String) (timestamp : Nat)
      (delta content : String)
  | textMessageEnd (messageId model : String) (timestamp : Nat)
  | toolCallStart (toolCallId toolName model : String) (timestamp : Nat)
      (index : Nat)
  | toolCallArgs (toolCallId model : String) (timestamp : Nat) (delta : String)
  | toolCallEnd (toolCallId toolName model : String) (timestamp : Nat)
      (input : Json)
  | runFinished (runId model : String) (timestamp : Nat)
      (usage : Option UsageOut) (finishReason : CanonReason)
  | runError (runId model : String) (timestamp : Nat)
      (message : String) (code : Option String)
deriving Repr

/-- Entry of the `toolCallsInProgress` map. -/
structure ToolCallInProgress where
  id : String
  name : String
  arguments : String
  started : Bool
deriving Repr, DecidableEq

/-- Mutable state of one `processGroqStreamChunks` invocation
(`accumulatedContent`, `hasEmittedTextMessageStart`, the
`toolCallsInProgress` JS `Map` — insertion-ordered association list —
and `aguiState.hasEmittedRunStarted`). -/
structure StreamState where
  accumulatedContent : String
  hasEmittedTextMessageStart : Bool
  hasEmittedRunStarted : Bool
  toolCalls : List (Nat × ToolCallInProgress)
deriving Repr, DecidableEq

def initState : StreamState :=
  { accumulatedContent := ""
    hasEmittedTextMessageStart := false
    hasEmittedRunStarted := false
    toolCalls := [] }

/-- The per-invocation identifiers of `aguiState` plus the requested
model (`options.model`): `runId`/`messageId` from `generateId`, the
single `Date.now()` timestamp. -/
structure StreamParams where
  runId : String
  messageId : String
  model : String
  ts : Nat
deriving Repr, DecidableEq

/-- `toolCallsInProgress.get(index)`. -/
def lookupTC (tcs : List (Nat × ToolCallInProgress)) (i : Nat) :
    Option ToolCallInProgress :=
  match tcs.find? (fun p => p.1 = i) with
  | none => none
  | some p => some p.2

/-- `toolCallsInProgress.set(index, tc)` on an existing key: replace the
entry in place (JS `Map` keeps insertion order on overwrite). -/
def setTC (tcs : List (Nat × ToolCallInProgress)) (i : Nat)
    (tc : ToolCallInProgress) : List (Nat × ToolCallInProgress) :=
  tcs.map (fun p => if p.1 = i then (i, tc) else p)

/-- `JSON.parse(toolCall.arguments)` with the source's fallback:
empty buffer or parse failure gives `{}`. -/
def parseArgs (s : String) : Json :=
  if s = "" then Json.obj []
  else
    match jsonParse s with
    | some v => v
    | none => Json.obj []

/-- Body of `for (const toolCallDelta of deltaToolCalls)` for one
`toolCallDelta` (text.ts lines 261-306).  After the conditional
insertion the lookup always succeeds, so the `getD` default never
fires (the source uses the non-null assertion
`toolCallsInProgress.get(index)!` there).  The `started` transition
guard `tc1.id ≠ "" ∧ tc1.name ≠ "" ∧ ¬tc1.started` is written once
for the state update and once for the `TOOL_CALL_START` emission;
both read the same values, as in the source. -/
def stepDelta (model : String) (P : StreamParams) (st : StreamState)
    (d : ToolCallDelta) : StreamState × List Evt :=
  let tcs :=
    if (lookupTC st.toolCalls d.index).isNone then
      st.toolCalls ++ [(d.index,
        { id := d.id, name := d.fname, arguments := "", started := false })]
    else st.toolCalls
  let tc0 :=
    (lookupTC tcs d.index).getD
      { id := d.id, name := d.fname, arguments := "", started := false }
  let tc1 : ToolCallInProgress :=
    { id := if d.id ≠ "" then d.id else tc0.id
      name := if d.fname ≠ "" then d.fname else tc0.name
      arguments := tc0.arguments ++ d.fargs
      started := tc0.started }
  let tc2 : ToolCallInProgress :=
    if tc1.id ≠ "" ∧ tc1.name ≠ "" ∧ tc1.started = false then
      { tc1 with started := true }
    else tc1
  let startEvts :=
    if tc1.id ≠ "" ∧ tc1.name ≠ "" ∧ tc1.started = false then
      [Evt.toolCallStart tc1.id tc1.name model P.ts d.index]
    else []
  let argsEvts :=
    if d.fargs ≠ "" ∧ tc2.started = true then
      [Evt.toolCallArgs tc2.id model P.ts d.fargs]
    else []
  ({ st with toolCalls := setTC tcs d.index tc2 }, startEvts ++ argsEvts)

/-- The whole `if (deltaToolCalls)` loop over one chunk's tool-call
deltas, in order. -/
def stepDeltas (model : String) (P : StreamParams) :
    StreamState → List ToolCallDelta → StreamState × List Evt
  | st, [] => (st, [])
  | st, d :: ds =>
    let r1 := stepDelta model P st d
    let r2 := stepDeltas model P r1.1 ds
    (r2.1, r1.2 ++ r2.2)

/-- `groqUsage ? {...} : undefined` of the `RUN_FINISHED` emission. -/
def usageOut : Option GroqUsage → Option UsageOut
  | none => none
  | some u =>
    some { promptTokens := u.prompt_tokens.getD 0
           completionTokens := u.completion_tokens.getD 0
           totalTokens := u.total_tokens.getD 0 }

/-- `computedFinishReason` (text.ts lines 335-341). -/
def computeFinishReason (fr : GroqFinishReason)
    (tcs : List (Nat × ToolCallInProgress)) : CanonReason :=
  if fr = GroqFinishReason.tool_calls ∨ 0 < tcs.length then
    CanonReason.tool_calls
  else if fr = GroqFinishReason.length then CanonReason.length
  else CanonReason.stop

/-- The `TOOL_CALL_END` emissions of the finish block (text.ts lines
310-333): one per in-progress call, in map insertion order, guarded by
`finish_reason === 'tool_calls' || toolCallsInProgress.size > 0`. -/
def toolCallEndEvts (model : String) (P : StreamParams)
    (fr : GroqFinishReason) (tcs : List (Nat × ToolCallInProgress)) :
    List Evt :=
  if fr = GroqFinishReason.tool_calls ∨ 0 < tcs.length then
    tcs.map (fun p =>
      Evt.toolCallEnd p.2.id p.2.name model P.ts (parseArgs p.2.arguments))
  else []

/-- The conditional `TEXT_MESSAGE_END` emission (text.ts lines 343-350). -/
def textEndEvts (model : String) (P : StreamParams) (started : Bool) :
    List Evt :=
  if started then [Evt.textMessageEnd P.messageId model P.ts] else []

/-- `if (choice.finish_reason) { ... }` block (text.ts lines 309-368):
tool-call ends, text end, `RUN_FINISHED` with the computed reason. -/
def finishEvents (model : String) (P : StreamParams) (st : StreamState)
    (fr : GroqFinishReason) (usage : Option GroqUsage) : List Evt :=
  toolCallEndEvts model P fr st.toolCalls ++
    textEndEvts model P st.hasEmittedTextMessageStart ++
    [Evt.runFinished P.runId model P.ts (usageOut usage)
      (computeFinishReason fr st.toolCalls)]

/-- `chunk.model || options.model`. -/
def effModel (P : StreamParams) (c : Chunk) : String :=
  if c.model = "" then P.model else c.model

/-- `if (!aguiState.hasEmittedRunStarted)` (text.ts lines 222-230):
state update. -/
def afterRunStarted (st : StreamState) : StreamState :=
  if st.hasEmittedRunStarted = false then
    { st with hasEmittedRunStarted := true }
  else st

/-- `if (!aguiState.hasEmittedRunStarted)`: the `RUN_STARTED` emission. -/
def runStartedEvts (model : String) (P : StreamParams) (st : StreamState) :
    List Evt :=
  if st.hasEmittedRunStarted = false then
    [Evt.runStarted P.runId model P.ts]
  else []

/-- `if (deltaContent)` (text.ts lines 236-258): state update (the
source sets `hasEmittedTextMessageStart` only when it was `false`; the
result is `true` either way). -/
def afterContent (st1 : StreamState) (content : String) : StreamState :=
  if content ≠ "" then
    { st1 with
      hasEmittedTextMessageStart := true
      accumulatedContent := st1.accumulatedContent ++ content }
  else st1

/-- `if (deltaContent)`: the `TEXT_MESSAGE_START`/`TEXT_MESSAGE_CONTENT`
emissions. -/
def contentEvts (model : String) (P : StreamParams) (st1 : StreamState)
    (content : String) : List Evt :=
  if content ≠ "" then
    (if st1.hasEmittedTextMessageStart = false then
      [Evt.textMessageStart P.messageId model P.ts]
    else []) ++
    [Evt.textMessageContent P.messageId model P.ts
      content (st1.accumulatedContent ++ content)]
  else []

/-- Body of `for await (const chunk of stream)` for one chunk
(text.ts lines 217-369). -/
def stepChunk (P : StreamParams) (st : StreamState) (c : Chunk) :
    StreamState × List Evt :=
  match c.choices.head? with
  | none => (st, [])
  | some choice =>
    let model := effModel P c
    let st1 := afterRunStarted st
    let st2 := afterContent st1 choice.delta.content
    let r3 := stepDeltas model P st2 choice.delta.tool_calls
    let e4 :=
      match choice.finish_reason with
      | none => []
      | some fr => finishEvents model P r3.1 fr c.usage
    (r3.1, runStartedEvts model P st ++
      contentEvts model P st1 choice.delta.content ++ r3.2 ++ e4)

/-- The chunk loop: processes the delivered chunks in order,
accumulating state and emitted events. -/
def runChunks (P : StreamParams) :
    StreamState → List Chunk → StreamState × List Evt
  | st, [] => (st, [])
  | st, c :: cs =>
    let r1 := stepChunk P st c
    let r2 := runChunks P r1.1 cs
    (r2.1, r1.2 ++ r2.2)

/-- `processGroqStreamChunks`: the chunk loop wrapped in the
`try`/`catch` that converts a mid-stream exception into one final
`RUN_ERROR` (text.ts lines 216-385).  `err = some e` means the vendor
iterator threw `e` after yielding `chunks`; `none` means it completed. -/
def processGroqStreamChunks (P : StreamParams) (chunks : List Chunk)
    (err : Option GroqError) : List Evt :=
  (runChunks P initState chunks).2 ++
    match err with
    | none => []
    | some e =>
      [Evt.runError P.runId P.model P.ts
        (if e.message = "" then "Unknown error occurred" else e.message)
        e.code]

/-- How one invocation's vendor interaction can go:
`createError e` — `client.chat.completions.create` itself threw;
`stream chunks err` — the SDK stream yielded `chunks` and then either
completed (`err = none`) or threw (`err = some e`). -/
inductive VendorBehavior where
  | createError (e : GroqError)
  | stream (chunks : List Chunk) (err : Option GroqError)
deriving Repr

/-- `chatStream` (text.ts lines 71-124): delegates to
`processGroqStreamChunks`; if creation of the vendor stream throws, the
outer `catch` emits `RUN_STARTED` (none was emitted yet at that point)
followed by `RUN_ERROR`. -/
def chatStream (P : StreamParams) : VendorBehavior → List Evt
  | VendorBehavior.createError e =>
    [Evt.runStarted P.runId P.model P.ts,
      Evt.runError P.runId P.model P.ts
        (if e.message = "" then "Unknown error" else e.message) e.code]
  | VendorBehavior.stream chunks err => processGroqStreamChunks P chunks err

end Groq

/-! ## OpenAI adapter, streaming text part
(`packages/ai-openai/src/openai-adapter.ts`, `chatStream` lines 609-686) -/

namespace OpenAI

/-- One `delta.tool_calls` entry (`index` may be absent, `|| 0` applied
on use; `id`/`function.name`/`function.arguments` with `""` = absent). -/
structure ToolCallDelta where
  index : Option Nat
  id : String
  fname : String
  fargs : String
deriving Repr, DecidableEq

structure Delta where
  content : String
  tool_calls : List ToolCallDelta
deriving Repr, DecidableEq

structure Choice where
  delta : Delta
  finish_reason : Option Groq.GroqFinishReason
deriving Repr, DecidableEq

structure Usage where
  prompt_tokens : Option Nat
  completion_tokens : Option Nat
  total_tokens : Option Nat
deriving Repr, DecidableEq

structure Chunk where
  id : String
  model : String
  choices : List Choice
  usage : Option Usage
deriving Repr, DecidableEq

/-- The `StreamChunk` variants yielded by the OpenAI `chatStream`
(`content`, `tool_call`, `done`, `error`). -/
inductive OEvt where
  | content (id model : String) (timestamp : Nat) (delta accContent : String)
  | tool_call (id model : String) (timestamp : Nat)
      (callId name arguments : String) (index : Nat)
  | done (id model : String) (timestamp : Nat)
      (finishReason : Groq.GroqFinishReason)
      (usage : Option Groq.UsageOut)
  | error (id model : String) (timestamp : Nat) (message : String)
      (code : Option String)
deriving Repr

/-- Loop body for one chunk (openai-adapter.ts lines 617-673).
`defCallId` stands for the `` `call_${Date.now()}` `` fallback id. -/
def stepChunk (ts : Nat) (defCallId : String) (acc : String) (c : Chunk) :
    String × List OEvt :=
  match c.choices.head? with
  | none => (acc, [])
  | some choice =>
    let (acc1, e1) :=
      if choice.delta.content ≠ "" then
        (acc ++ choice.delta.content,
          [OEvt.content c.id c.model ts choice.delta.content
            (acc ++ choice.delta.content)])
      else (acc, [])
    let e2 := choice.delta.tool_calls.map (fun tc =>
      OEvt.tool_call c.id c.model ts
        (if tc.id = "" then defCallId else tc.id) tc.fname tc.fargs
        (tc.index.getD 0))
    let e3 :=
      match choice.finish_reason with
      | none => []
      | some fr =>
        [OEvt.done c.id c.model ts fr
          (match c.usage with
           | none => none
           | some u =>
             some { promptTokens := u.prompt_tokens.getD 0
                    completionTokens := u.completion_tokens.getD 0
                    totalTokens := u.total_tokens.getD 0 })]
    (acc1, e1 ++ e2 ++ e3)

/-- The chunk loop with the running `accumulatedContent`. -/
def runChunks (ts : Nat) (defCallId : String) :
    String → List Chunk → String × List OEvt
  | acc, [] => (acc, [])
  | acc, c :: cs =>
    let (acc1, e1) := stepChunk ts defCallId acc c
    let (acc2, e2) := runChunks ts defCallId acc1 cs
    (acc2, e1 ++ e2)

/-- The streaming part of the OpenAI `chatStream`: chunk loop plus the
`catch` that yields one final `error` chunk.  `genId` stands for
`this.generateId()`, `optModel` for `options.model || "gpt-3.5-turbo"`
already resolved. -/
def chatStream (ts : Nat) (defCallId genId optModel : String)
    (chunks : List Chunk) (err : Option Groq.GroqError) : List OEvt :=
  (runChunks ts defCallId "" chunks).2 ++
    match err with
    | none => []
    | some e =>
      [OEvt.error genId optModel ts
        (if e.message = "" then "Unknown error occurred" else e.message)
        e.code]

end OpenAI

/-! ## Chat client
(`packages/typescript/ai-client/src/chat-client.ts`) -/

namespace Client

/-- `approval` metadata attached to a tool-call part. -/
structure Approval where
  id : String
  needsApproval : Bool
  approved : Option Bool
deriving Repr, DecidableEq

/-- A `tool-call` message part.  `output = none` models the field being
`undefined`. -/
structure ToolCallPart where
  id : String
  name : String
  arguments : String
  state : String
  output : Option Json
  approval : Option Approval
deriving Repr

/-- A `tool-result` message part. -/
structure ToolResultPart where
  toolCallId : String
  content : String
  state : String
  error : Option String
deriving Repr, DecidableEq

/-- A message part (`text`, `tool-call` or `tool-result`). -/
inductive Part where
  | text (content : String)
  | toolCall (tc : ToolCallPart)
  | toolResult (tr : ToolResultPart)
deriving Repr

def Part.isText : Part → Bool
  | Part.text _ => true
  | _ => false

def Part.isToolCall : Part → Bool
  | Part.toolCall _ => true
  | _ => false

/-- `p.type === "tool-call"` refinement. -/
def Part.toolCallPart? : Part → Option ToolCallPart
  | Part.toolCall tc => some tc
  | _ => none

structure UIMessage where
  id : String
  role : String
  parts : List Part
deriving Repr

/-- JS `Array.prototype.findIndex`: index of the first element
satisfying the predicate (`none` models `-1`). -/
def findIndex (pred : Part → Bool) : List Part → Option Nat
  | [] => none
  | y :: ys => if pred y then some 0 else (findIndex pred ys).map (· + 1)

/-- `parts.find(pred)` followed by an in-place mutation of the found
part: replaces the first part satisfying `pred` by its update. -/
def updateFirstPart (pred : Part → Bool) (f : Part → Part) :
    List Part → List Part
  | [] => []
  | x :: xs => if pred x then f x :: xs else x :: updateFirstPart pred f xs

/-- `shouldAutoSend` (chat-client.ts lines 690-709). -/
def shouldAutoSend (msgs : List UIMessage) : Bool :=
  match msgs.reverse.find? (fun m => m.role = "assistant") with
  | none => false
  | some lastAssistant =>
    let toolParts := lastAssistant.parts.filterMap Part.toolCallPart?
    if toolParts.isEmpty then false
    else
      toolParts.all (fun part =>
        part.state = "approval-responded" ||
          (part.output.isSome && part.approval.isNone))

/-- Argument record of `addToolResult`. -/
structure ToolResultInput where
  toolCallId : String
  tool : String
  output : Json
  errorText : Option String
deriving Repr

/-- The part update performed by `addToolResult` on the first tool-call
part with the matching id (chat-client.ts lines 582-598). -/
def applyToolResult (r : ToolResultInput) (parts : List Part) : List Part :=
  updateFirstPart
    (fun p => match p with
      | Part.toolCall tc => tc.id = r.toolCallId
      | _ => false)
    (fun p => match p with
      | Part.toolCall tc =>
        Part.toolCall { tc with
          state := "input-complete"
          output := match r.errorText with
            | some e => some (Json.obj [("error", Json.str e)])
            | none => some r.output }
      | other => other)
    parts

/-- `addToolResult`: updates the matching part in every message, then
checks `shouldAutoSend`; the returned Bool is whether `continueFlow`
(a new connection) is triggered (`continueFlow` additionally no-ops
while a stream is already loading). -/
def addToolResult (msgs : List UIMessage) (r : ToolResultInput) :
    List UIMessage × Bool :=
  let msgs' := msgs.map (fun m => { m with parts := applyToolResult r m.parts })
  (msgs', shouldAutoSend msgs')

/-- Argument record of `addToolApprovalResponse`
(`id` is the approval id, not the tool-call id). -/
structure ApprovalResponse where
  id : String
  approved : Bool
deriving Repr, DecidableEq

/-- Whether a part is the tool-call part carrying approval id `aid`. -/
def matchesApproval (aid : String) : Part → Bool
  | Part.toolCall tc =>
    match tc.approval with
    | some a => a.id = aid
    | none => false
  | _ => false

/-- The mutation `addToolApprovalResponse` applies to the located part:
record the decision on the attached approval and set the state to
`approval-responded` (chat-client.ts lines 649-652). -/
def approvalDecisionUpdate (resp : ApprovalResponse) : Part → Part
  | Part.toolCall tc =>
    Part.toolCall { tc with
      state := "approval-responded"
      approval := match tc.approval with
        | some a => some { a with approved := some resp.approved }
        | none => none }
  | other => other

/-- The part update performed by `addToolApprovalResponse` on the first
part whose `approval.id` matches (chat-client.ts lines 640-656). -/
def applyApproval (resp : ApprovalResponse) (parts : List Part) : List Part :=
  updateFirstPart (matchesApproval resp.id) (approvalDecisionUpdate resp) parts

/-- `addToolApprovalResponse`: updates the matching part in every
message, then checks `shouldAutoSend`; the Bool is whether
`continueFlow` is triggered. -/
def addToolApprovalResponse (msgs : List UIMessage) (resp : ApprovalResponse) :
    List UIMessage × Bool :=
  let msgs' := msgs.map (fun m => { m with parts := applyApproval resp m.parts })
  (msgs', shouldAutoSend msgs')

/-! ### Stream-processor handlers of `processStreamWithProcessor`
(the per-event updates applied to the target assistant message's
`parts` array). -/

/-- `onTextUpdate` (chat-client.ts lines 152-174): replace the text part
in place, or rebuild as tool-call parts, then other parts, then the new
text part. -/
def onTextUpdate (content : String) (parts : List Part) : List Part :=
  match findIndex Part.isText parts with
  | some k => parts.set k (Part.text content)
  | none =>
    let toolCallParts := parts.filter Part.isToolCall
    let otherParts :=
      parts.filter (fun p => !Part.isToolCall p && !Part.isText p)
    toolCallParts ++ otherParts ++ [Part.text content]

/-- `onToolCallStateChange` (chat-client.ts lines 199-233): locate the
tool-call part by id (never by index); update in place, or insert the
new part before the first text part (at its position), else push. -/
def onToolCallStateChange (id name state args : String) (parts : List Part) :
    List Part :=
  let toolCallPart : Part :=
    Part.toolCall
      { id := id, name := name, arguments := args, state := state
        output := none, approval := none }
  match findIndex (fun p => match p with
    | Part.toolCall tc => tc.id = id
    | _ => false) parts with
  | some k => parts.set k toolCallPart
  | none =>
    match findIndex Part.isText parts with
    | some t => parts.take t ++ [toolCallPart] ++ parts.drop t
    | none => parts ++ [toolCallPart]

/-- `onToolResultStateChange` (chat-client.ts lines 247-273): update the
tool-result part with the matching `toolCallId` in place, or push a new
one at the end. -/
def onToolResultStateChange (toolCallId content state : String)
    (error : Option String) (parts : List Part) : List Part :=
  let toolResultPart : Part :=
    Part.toolResult
      { toolCallId := toolCallId, content := content, state := state
        error := error }
  match findIndex (fun p => match p with
    | Part.toolResult tr => tr.toolCallId = toolCallId
    | _ => false) parts with
  | some k => parts.set k toolResultPart
  | none => parts ++ [toolResultPart]

/-- `onApprovalRequested` (chat-client.ts lines 288-308): mark the
matching tool-call part as `approval-requested` and attach the
approval metadata. -/
def onApprovalRequested (toolCallId approvalId : String)
    (parts : List Part) : List Part :=
  updateFirstPart
    (fun p => match p with
      | Part.toolCall tc => tc.id = toolCallId
      | _ => false)
    (fun p => match p with
      | Part.toolCall tc =>
        Part.toolCall { tc with
          state := "approval-requested"
          approval := some { id := approvalId, needsApproval := true
                             approved := none } }
      | other => other)
    parts

/-- `onToolInputAvailable`, no-`onToolCall`-callback branch
(chat-client.ts lines 338-354): mark the matching tool-call part as
`input-complete`. -/
def onToolInputAvailable (toolCallId : String) (parts : List Part) :
    List Part :=
  updateFirstPart
    (fun p => match p with
      | Part.toolCall tc => tc.id = toolCallId
      | _ => false)
    (fun p => match p with
      | Part.toolCall tc => Part.toolCall { tc with state := "input-complete" }
      | other => other)
    parts

/-- One canonical event as seen by the stream reducer (the argument
tuples the `StreamProcessor` hands to each handler). -/
inductive RedEvent where
  | textUpdate (content : String)
  | toolCallChange (id name state args : String)
  | toolResultChange (toolCallId content state : String) (error : Option String)
  | approvalRequested (toolCallId approvalId : String)
  | toolInputAvailable (toolCallId : String)
deriving Repr

/-- Dispatch of one reducer event to its handler. -/
def stepRed (parts : List Part) : RedEvent → List Part
  | RedEvent.textUpdate content => onTextUpdate content parts
  | RedEvent.toolCallChange id name state args =>
    onToolCallStateChange id name state args parts
  | RedEvent.toolResultChange tcid content state err =>
    onToolResultStateChange tcid content state err parts
  | RedEvent.approvalRequested tcid aid => onApprovalRequested tcid aid parts
  | RedEvent.toolInputAvailable tcid => onToolInputAvailable tcid parts

/-- The reducer run: the target assistant message starts with
`parts: []` and folds the event sequence. -/
def reduceParts (events : List RedEvent) : List Part :=
  events.foldl stepRed []

end Client

/-! ## Event classifiers and basic lemmas -/

namespace Groq

/-- The timestamp field carried by an event. -/
def Evt.timestamp : Evt → Nat
  | Evt.runStarted _ _ ts => ts
  | Evt.textMessageStart _ _ ts => ts
  | Evt.textMessageContent _ _ ts _ _ => ts
  | Evt.textMessageEnd _ _ ts => ts
  | Evt.toolCallStart _ _ _ ts _ => ts
  | Evt.toolCallArgs _ _ ts _ => ts
  | Evt.toolCallEnd _ _ _ ts _ => ts
  | Evt.runFinished _ _ ts _ _ => ts
  | Evt.runError _ _ ts _ _ => ts

/-- Terminal events: `RUN_FINISHED` or `RUN_ERROR`. -/
def Evt.isTerminal : Evt → Bool
  | Evt.runFinished _ _ _ _ _ => true
  | Evt.runError _ _ _ _ _ => true
  | _ => false

def Evt.isRunError : Evt → Bool
  | Evt.runError _ _ _ _ _ => true
  | _ => false

def Evt.isRunFinished : Evt → Bool
  | Evt.runFinished _ _ _ _ _ => true
  | _ => false

def Evt.isRunStarted : Evt → Bool
  | Evt.runStarted _ _ _ => true
  | _ => false

def Evt.isTextContent : Evt → Bool
  | Evt.textMessageContent _ _ _ _ _ => true
  | _ => false

def Evt.isToolCallArgs : Evt → Bool
  | Evt.toolCallArgs _ _ _ _ => true
  | _ => false

def Evt.isToolCallEnd : Evt → Bool
  | Evt.toolCallEnd _ _ _ _ _ => true
  | _ => false

theorem timestamp_stepDelta (model : String) (P : StreamParams)
    (st : StreamState) (d : ToolCallDelta) :
    ∀ e ∈ (stepDelta model P st d).2, e.timestamp = P.ts := by
  intro e he
  unfold stepDelta at he
  simp only [List.mem_append] at he
  rcases he with h | h <;> split at h <;> simp_all [Evt.timestamp]

theorem timestamp_stepDeltas (model : String) (P : StreamParams)
    (st : StreamState) (ds : List ToolCallDelta) :
    ∀ e ∈ (stepDeltas model P st ds).2, e.timestamp = P.ts := by
  induction ds generalizing st with
  | nil => simp [stepDeltas]
  | cons d ds ih =>
    intro e he
    simp only [stepDeltas, List.mem_append] at he
    rcases he with h | h
    · exact timestamp_stepDelta model P st d e h
    · exact ih _ e h

/-- `stepDeltas` unfolding on a cons, stated for rewriting. -/
theorem stepDeltas_cons (model : String) (P : StreamParams)
    (st : StreamState) (d : ToolCallDelta) (ds : List ToolCallDelta) :
    stepDeltas model P st (d :: ds) =
      ((stepDeltas model P (stepDelta model P st d).1 ds).1,
        (stepDelta model P st d).2 ++
          (stepDeltas model P (stepDelta model P st d).1 ds).2) := by
  simp [stepDeltas]

/-- `runChunks` unfolding on a cons, stated for rewriting. -/
theorem runChunks_cons (P : StreamParams) (st : StreamState) (c : Chunk)
    (cs : List Chunk) :
    runChunks P st (c :: cs) =
      ((runChunks P (stepChunk P st c).1 cs).1,
        (stepChunk P st c).2 ++ (runChunks P (stepChunk P st c).1 cs).2) := by
  simp [runChunks]

theorem timestamp_finishEvents (model : String) (P : StreamParams)
    (st : StreamState) (fr : GroqFinishReason) (usage : Option GroqUsage) :
    ∀ e ∈ finishEvents model P st fr usage, e.timestamp = P.ts := by
  intro e he
  unfold finishEvents at he
  simp only [List.mem_append, List.mem_singleton] at he
  rcases he with (h | h) | h
  · unfold toolCallEndEvts at h
    split at h
    · simp only [List.mem_map] at h
      obtain ⟨p, _, rfl⟩ := h
      rfl
    · simp at h
  · unfold textEndEvts at h
    split at h
    · simp only [List.mem_singleton] at h
      subst h; rfl
    · simp at h
  · subst h; rfl

theorem timestamp_runStartedEvts (model : String) (P : StreamParams)
    (st : StreamState) (e : Evt) (h : e ∈ runStartedEvts model P st) :
    e.timestamp = P.ts := by
  unfold runStartedEvts at h
  split at h <;> simp_all [Evt.timestamp]

theorem timestamp_contentEvts (model : String) (P : StreamParams)
    (st1 : StreamState) (content : String) (e : Evt)
    (h : e ∈ contentEvts model P st1 content) :
    e.timestamp = P.ts := by
  unfold contentEvts at h
  split at h
  · simp only [List.mem_append, List.mem_singleton] at h
    rcases h with h | h
    · split at h <;> simp_all [Evt.timestamp]
    · subst h; rfl
  · simp at h

theorem timestamp_stepChunk (P : StreamParams) (st : StreamState) (c : Chunk) :
    ∀ e ∈ (stepChunk P st c).2, e.timestamp = P.ts := by
  intro e he
  unfold stepChunk at he
  split at he
  · simp at he
  · simp only [List.mem_append] at he
    rcases he with ((h | h) | h) | h
    · exact timestamp_runStartedEvts _ P _ e h
    · exact timestamp_contentEvts _ P _ _ e h
    · exact timestamp_stepDeltas _ P _ _ e h
    · split at h
      · simp at h
      · exact timestamp_finishEvents _ P _ _ c.usage e h

theorem timestamp_runChunks (P : StreamParams) (st : StreamState)
    (cs : List Chunk) :
    ∀ e ∈ (runChunks P st cs).2, e.timestamp = P.ts := by
  induction cs generalizing st with
  | nil => simp [runChunks]
  | cons c cs ih =>
    intro e he
    simp only [runChunks, List.mem_append] at he
    rcases he with h | h
    · exact timestamp_stepChunk P st c e h
    · exact ih _ e h

end Groq

namespace Groq

/-- Whether the chunk's first choice carries a `finish_reason`. -/
def Chunk.hasFinish (c : Chunk) : Bool :=
  match c.choices.head? with
  | none => false
  | some choice => choice.finish_reason.isSome

/-- Whether the chunk's first choice carries at least one tool-call
delta. -/
def Chunk.hasToolDeltas (c : Chunk) : Bool :=
  match c.choices.head? with
  | none => false
  | some choice => !choice.delta.tool_calls.isEmpty

theorem mem_ite_singleton {α : Type} {c : Prop} [Decidable c] {x e : α}
    (h : e ∈ if c then [x] else []) : e = x := by
  split at h <;> simp_all

theorem stepDelta_mem (model : String) (P : StreamParams) (st : StreamState)
    (d : ToolCallDelta) (e : Evt) (h : e ∈ (stepDelta model P st d).2) :
    (∃ a b i, e = Evt.toolCallStart a b model P.ts i) ∨
      ∃ a s, e = Evt.toolCallArgs a model P.ts s := by
  unfold stepDelta at h
  simp only [List.mem_append] at h
  rcases h with h | h
  · exact Or.inl ⟨_, _, _, mem_ite_singleton h⟩
  · exact Or.inr ⟨_, _, mem_ite_singleton h⟩

theorem stepDeltas_mem (model : String) (P : StreamParams) (st : StreamState)
    (ds : List ToolCallDelta) (e : Evt)
    (h : e ∈ (stepDeltas model P st ds).2) :
    (∃ a b i, e = Evt.toolCallStart a b model P.ts i) ∨
      ∃ a s, e = Evt.toolCallArgs a model P.ts s := by
  induction ds generalizing st with
  | nil => simp [stepDeltas] at h
  | cons d ds ih =>
    simp only [stepDeltas, List.mem_append] at h
    rcases h with h | h
    · exact stepDelta_mem model P st d e h
    · exact ih _ h

theorem stepDeltas_not_terminal (model : String) (P : StreamParams)
    (st : StreamState) (ds : List ToolCallDelta) (e : Evt)
    (h : e ∈ (stepDeltas model P st ds).2) :
    e.isTerminal = false ∧ e.isRunError = false ∧
      e.isTextContent = false ∧ e.isToolCallEnd = false := by
  rcases stepDeltas_mem model P st ds e h with ⟨a, b, i, rfl⟩ | ⟨a, s, rfl⟩ <;>
    exact ⟨rfl, rfl, rfl, rfl⟩

theorem toolCallEndEvts_mem (model : String) (P : StreamParams)
    (fr : GroqFinishReason) (tcs : List (Nat × ToolCallInProgress)) (e : Evt)
    (h : e ∈ toolCallEndEvts model P fr tcs) :
    ∃ p ∈ tcs, e = Evt.toolCallEnd p.2.id p.2.name model P.ts
      (parseArgs p.2.arguments) := by
  unfold toolCallEndEvts at h
  split at h
  · simp only [List.mem_map] at h
    obtain ⟨p, hp, rfl⟩ := h
    exact ⟨p, hp, rfl⟩
  · simp at h

theorem toolCallEndEvts_not_terminal (model : String) (P : StreamParams)
    (fr : GroqFinishReason) (tcs : List (Nat × ToolCallInProgress)) (e : Evt)
    (h : e ∈ toolCallEndEvts model P fr tcs) :
    e.isTerminal = false ∧ e.isRunError = false ∧
      e.isTextContent = false ∧ e.isToolCallArgs = false := by
  obtain ⟨p, _, rfl⟩ := toolCallEndEvts_mem model P fr tcs e h
  exact ⟨rfl, rfl, rfl, rfl⟩

theorem textEndEvts_not_terminal (model : String) (P : StreamParams)
    (started : Bool) (e : Evt) (h : e ∈ textEndEvts model P started) :
    e.isTerminal = false ∧ e.isRunError = false ∧
      e.isTextContent = false ∧ e.isToolCallArgs = false := by
  unfold textEndEvts at h
  split at h
  · simp only [List.mem_singleton] at h
    subst h; exact ⟨rfl, rfl, rfl, rfl⟩
  · simp at h

theorem finishEvents_decomp (model : String) (P : StreamParams)
    (st : StreamState) (fr : GroqFinishReason) (usage : Option GroqUsage) :
    finishEvents model P st fr usage =
      (toolCallEndEvts model P fr st.toolCalls ++
        textEndEvts model P st.hasEmittedTextMessageStart) ++
      [Evt.runFinished P.runId model P.ts (usageOut usage)
        (computeFinishReason fr st.toolCalls)] := by
  simp [finishEvents]

theorem finishEvents_front_not_terminal (model : String) (P : StreamParams)
    (st : StreamState) (fr : GroqFinishReason) (e : Evt)
    (h : e ∈ toolCallEndEvts model P fr st.toolCalls ++
      textEndEvts model P st.hasEmittedTextMessageStart) :
    e.isTerminal = false ∧ e.isRunError = false ∧
      e.isTextContent = false ∧ e.isToolCallArgs = false := by
  simp only [List.mem_append] at h
  rcases h with h | h
  · obtain ⟨p, _, rfl⟩ := toolCallEndEvts_mem model P fr st.toolCalls e h
    exact ⟨rfl, rfl, rfl, rfl⟩
  · unfold textEndEvts at h
    split at h
    · simp only [List.mem_singleton] at h
      subst h; exact ⟨rfl, rfl, rfl, rfl⟩
    · simp at h

/-- The state coming out of `stepChunk` is the state after the
tool-call delta loop (the finish block does not mutate state). -/
theorem stepChunk_state (P : StreamParams) (st : StreamState) (c : Chunk)
    (choice : Choice) (hc : c.choices.head? = some choice) :
    (stepChunk P st c).1 =
      (stepDeltas (effModel P c) P
        (afterContent (afterRunStarted st) choice.delta.content)
        choice.delta.tool_calls).1 := by
  unfold stepChunk
  rw [hc]

/-- The event list of `stepChunk` on a chunk with a choice. -/
theorem stepChunk_events (P : StreamParams) (st : StreamState) (c : Chunk)
    (choice : Choice) (hc : c.choices.head? = some choice) :
    (stepChunk P st c).2 =
      runStartedEvts (effModel P c) P st ++
        contentEvts (effModel P c) P (afterRunStarted st)
          choice.delta.content ++
        (stepDeltas (effModel P c) P
          (afterContent (afterRunStarted st) choice.delta.content)
          choice.delta.tool_calls).2 ++
        (match choice.finish_reason with
          | none => []
          | some fr =>
            finishEvents (effModel P c) P
              (stepDeltas (effModel P c) P
                (afterContent (afterRunStarted st) choice.delta.content)
                choice.delta.tool_calls).1 fr c.usage) := by
  unfold stepChunk
  rw [hc]

end Groq

namespace Groq

theorem stepChunk_none (P : StreamParams) (st : StreamState) (c : Chunk)
    (hc : c.choices.head? = none) : stepChunk P st c = (st, []) := by
  unfold stepChunk
  rw [hc]

theorem runStartedEvts_mem (model : String) (P : StreamParams)
    (st : StreamState) (e : Evt) (h : e ∈ runStartedEvts model P st) :
    e = Evt.runStarted P.runId model P.ts := by
  unfold runStartedEvts at h
  exact mem_ite_singleton h

theorem contentEvts_mem (model : String) (P : StreamParams)
    (st1 : StreamState) (content : String) (e : Evt)
    (h : e ∈ contentEvts model P st1 content) :
    e = Evt.textMessageStart P.messageId model P.ts ∨
      e = Evt.textMessageContent P.messageId model P.ts content
        (st1.accumulatedContent ++ content) := by
  unfold contentEvts at h
  split at h
  · simp only [List.mem_append, List.mem_singleton] at h
    rcases h with h | h
    · exact Or.inl (mem_ite_singleton h)
    · exact Or.inr h
  · simp at h

/-- Event-list equation for a chunk whose choice has no finish signal. -/
theorem stepChunk_events_noFinish (P : StreamParams) (st : StreamState)
    (c : Chunk) (choice : Choice) (hc : c.choices.head? = some choice)
    (hf : choice.finish_reason = none) :
    (stepChunk P st c).2 =
      runStartedEvts (effModel P c) P st ++
        contentEvts (effModel P c) P (afterRunStarted st)
          choice.delta.content ++
        (stepDeltas (effModel P c) P
          (afterContent (afterRunStarted st) choice.delta.content)
          choice.delta.tool_calls).2 := by
  rw [stepChunk_events P st c choice hc, hf]
  simp

/-- Event-list equation for a chunk whose choice carries `finish_reason`. -/
theorem stepChunk_events_finish (P : StreamParams) (st : StreamState)
    (c : Chunk) (choice : Choice) (fr : GroqFinishReason)
    (hc : c.choices.head? = some choice)
    (hf : choice.finish_reason = some fr) :
    (stepChunk P st c).2 =
      runStartedEvts (effModel P c) P st ++
        contentEvts (effModel P c) P (afterRunStarted st)
          choice.delta.content ++
        (stepDeltas (effModel P c) P
          (afterContent (afterRunStarted st) choice.delta.content)
          choice.delta.tool_calls).2 ++
        finishEvents (effModel P c) P
          (stepDeltas (effModel P c) P
            (afterContent (afterRunStarted st) choice.delta.content)
            choice.delta.tool_calls).1 fr c.usage := by
  rw [stepChunk_events P st c choice hc, hf]

theorem stepChunk_not_runError (P : StreamParams) (st : StreamState)
    (c : Chunk) : ∀ e ∈ (stepChunk P st c).2, e.isRunError = false := by
  intro e he
  cases hc : c.choices.head? with
  | none => rw [stepChunk_none P st c hc] at he; simp at he
  | some choice =>
    cases hf : choice.finish_reason with
    | none =>
      rw [stepChunk_events_noFinish P st c choice hc hf] at he
      simp only [List.mem_append] at he
      rcases he with (h | h) | h
      · rw [runStartedEvts_mem _ P _ e h]; rfl
      · rcases contentEvts_mem _ P _ _ e h with rfl | rfl <;> rfl
      · exact (stepDeltas_not_terminal _ P _ _ e h).2.1
    | some fr =>
      rw [stepChunk_events_finish P st c choice fr hc hf] at he
      simp only [List.mem_append] at he
      rcases he with ((h | h) | h) | h
      · rw [runStartedEvts_mem _ P _ e h]; rfl
      · rcases contentEvts_mem _ P _ _ e h with rfl | rfl <;> rfl
      · exact (stepDeltas_not_terminal _ P _ _ e h).2.1
      · rw [finishEvents_decomp] at h
        simp only [List.mem_append, List.mem_singleton] at h
        rcases h with (h | h) | h
        · exact (toolCallEndEvts_not_terminal _ P _ _ e h).2.1
        · exact (textEndEvts_not_terminal _ P _ e h).2.1
        · subst h; rfl

theorem runChunks_not_runError (P : StreamParams) (st : StreamState)
    (cs : List Chunk) :
    ∀ e ∈ (runChunks P st cs).2, e.isRunError = false := by
  induction cs generalizing st with
  | nil => simp [runChunks]
  | cons c cs ih =>
    intro e he
    simp only [runChunks, List.mem_append] at he
    rcases he with h | h
    · exact stepChunk_not_runError P st c e h
    · exact ih _ e h

theorem stepChunk_noFinish_noTerminal (P : StreamParams) (st : StreamState)
    (c : Chunk) (hnf : c.hasFinish = false) :
    ∀ e ∈ (stepChunk P st c).2, e.isTerminal = false := by
  intro e he
  cases hc : c.choices.head? with
  | none => rw [stepChunk_none P st c hc] at he; simp at he
  | some choice =>
    have hf : choice.finish_reason = none := by
      unfold Chunk.hasFinish at hnf
      rw [hc] at hnf
      cases hfr : choice.finish_reason with
      | none => rfl
      | some fr => simp [hfr] at hnf
    rw [stepChunk_events_noFinish P st c choice hc hf] at he
    simp only [List.mem_append] at he
    rcases he with (h | h) | h
    · rw [runStartedEvts_mem _ P _ e h]; rfl
    · rcases contentEvts_mem _ P _ _ e h with rfl | rfl <;> rfl
    · exact (stepDeltas_not_terminal _ P _ _ e h).1

/-- `noFinishChunks cs`: no chunk of `cs` carries a finish signal. -/
def noFinishChunks (cs : List Chunk) : Bool :=
  cs.all (fun c => !c.hasFinish)

/-- `singleFinishAtEnd cs`: the last chunk carries the only finish
signal of the sequence. -/
def singleFinishAtEnd (cs : List Chunk) : Bool :=
  match cs.getLast? with
  | none => false
  | some c => c.hasFinish && noFinishChunks cs.dropLast

theorem runChunks_noFinish_noTerminal (P : StreamParams) :
    ∀ (cs : List Chunk) (st : StreamState), noFinishChunks cs = true →
      ∀ e ∈ (runChunks P st cs).2, e.isTerminal = false := by
  intro cs
  induction cs with
  | nil => intro st _ e he; simp [runChunks] at he
  | cons c cs ih =>
    intro st h e he
    simp only [noFinishChunks, List.all_cons, Bool.and_eq_true,
      Bool.not_eq_true'] at h
    simp only [runChunks, List.mem_append] at he
    rcases he with hm | hm
    · exact stepChunk_noFinish_noTerminal P st c h.1 e hm
    · exact ih _ h.2 e hm

theorem runChunks_append (P : StreamParams) (st : StreamState)
    (cs1 cs2 : List Chunk) :
    runChunks P st (cs1 ++ cs2) =
      ((runChunks P (runChunks P st cs1).1 cs2).1,
        (runChunks P st cs1).2 ++
          (runChunks P (runChunks P st cs1).1 cs2).2) := by
  induction cs1 generalizing st with
  | nil => simp [runChunks]
  | cons c cs1 ih =>
    simp only [List.cons_append, runChunks_cons, ih, List.append_assoc]

/-- Finish-chunk decomposition: a chunk whose choice carries a
`finish_reason` ends its event list with a `RUN_FINISHED` whose
model/usage/reason are as computed by the finish block, and every
event before it is non-terminal. -/
theorem stepChunk_finish_decomp (P : StreamParams) (st : StreamState)
    (c : Chunk) (choice : Choice) (fr : GroqFinishReason)
    (hc : c.choices.head? = some choice)
    (hf : choice.finish_reason = some fr) :
    ∃ front,
      (stepChunk P st c).2 = front ++
        [Evt.runFinished P.runId (effModel P c) P.ts (usageOut c.usage)
          (computeFinishReason fr (stepChunk P st c).1.toolCalls)] ∧
      ∀ e ∈ front, e.isTerminal = false := by
  rw [stepChunk_events_finish P st c choice fr hc hf,
    stepChunk_state P st c choice hc, finishEvents_decomp]
  refine ⟨runStartedEvts (effModel P c) P st ++
    contentEvts (effModel P c) P (afterRunStarted st) choice.delta.content ++
    (stepDeltas (effModel P c) P
      (afterContent (afterRunStarted st) choice.delta.content)
      choice.delta.tool_calls).2 ++
    (toolCallEndEvts (effModel P c) P fr
        (stepDeltas (effModel P c) P
          (afterContent (afterRunStarted st) choice.delta.content)
          choice.delta.tool_calls).1.toolCalls ++
      textEndEvts (effModel P c) P
        (stepDeltas (effModel P c) P
          (afterContent (afterRunStarted st) choice.delta.content)
          choice.delta.tool_calls).1.hasEmittedTextMessageStart), ?_, ?_⟩
  · simp [List.append_assoc]
  · intro e he
    simp only [List.mem_append] at he
    rcases he with ((h | h) | h) | h
    · rw [runStartedEvts_mem _ P _ e h]; rfl
    · rcases contentEvts_mem _ P _ _ e h with rfl | rfl <;> rfl
    · exact (stepDeltas_not_terminal _ P _ _ e h).1
    · rcases h with h | h
      · exact (toolCallEndEvts_not_terminal _ P _ _ e h).1
      · exact (textEndEvts_not_terminal _ P _ e h).1

end Groq

namespace Groq

/-- A list decomposes as its `dropLast` plus its last element. -/
theorem getLast?_decomp {α : Type} {l : List α} {a : α}
    (h : l.getLast? = some a) : l = l.dropLast ++ [a] := by
  induction l using List.reverseRecOn with
  | nil => simp at h
  | append_singleton xs x _ =>
    simp only [List.getLast?_concat, Option.some.injEq] at h
    subst h
    simp

theorem hasFinish_iff (c : Chunk) :
    c.hasFinish = true ↔
      ∃ choice fr, c.choices.head? = some choice ∧
        choice.finish_reason = some fr := by
  unfold Chunk.hasFinish
  cases hc : c.choices.head? with
  | none => simp
  | some choice =>
    cases hf : choice.finish_reason <;> simp [hf, Option.isSome]

/-- The spec's terminal-event property: the sequence is non-empty, its
last event is terminal (`RUN_FINISHED` or `RUN_ERROR`), and no earlier
event is terminal. -/
def ExactlyOneTerminalLast (evts : List Evt) : Prop :=
  ∃ front t, evts = front ++ [t] ∧ t.isTerminal = true ∧
    ∀ e ∈ front, e.isTerminal = false

/-- Vendor behaviors for which the adapter does produce exactly one
terminal event: stream-creation failure; a mid-stream throw with no
finish signal among the delivered chunks; or a completed stream whose
single finish signal sits in the final chunk. -/
def Admissible : VendorBehavior → Bool
  | VendorBehavior.createError _ => true
  | VendorBehavior.stream chunks none => singleFinishAtEnd chunks
  | VendorBehavior.stream chunks (some _) => noFinishChunks chunks

/-- Concrete parameters used by the concrete-input theorems below. -/
def Pex : StreamParams :=
  { runId := "run-1", messageId := "msg-1", model := "model-a", ts := 42 }

/-- A chunk carrying only a `stop` finish signal. -/
def chunkFinStop : Chunk :=
  { model := "m2"
    choices := [{ delta := { content := "", tool_calls := [] }
                  finish_reason := some GroqFinishReason.stop }]
    usage := none }

/-- C1, counterexample: on a vendor stream that completes without ever
signalling a finish (here: zero chunks), `chatStream` emits no terminal
event at all, so "exactly one terminal event" fails. -/
theorem chatStream_empty_stream_no_terminal :
    ¬ ExactlyOneTerminalLast
        (chatStream Pex (VendorBehavior.stream [] none)) := by
  rintro ⟨front, t, heq, -, -⟩
  have hlen := congrArg List.length heq
  simp [chatStream, processGroqStreamChunks, runChunks] at hlen

/-- C1, amended: for every admissible vendor behavior — stream-creation
failure, a mid-stream throw with no earlier finish signal, or a
completed stream whose unique finish signal is in the final chunk —
`chatStream` produces exactly one terminal event
(`RUN_FINISHED` xor `RUN_ERROR`) and it is the last event. -/
theorem chatStream_exactly_one_terminal (P : StreamParams)
    (b : VendorBehavior) (h : Admissible b = true) :
    ExactlyOneTerminalLast (chatStream P b) := by
  cases b with
  | createError e =>
    refine ⟨[Evt.runStarted P.runId P.model P.ts],
      Evt.runError P.runId P.model P.ts
        (if e.message = "" then "Unknown error" else e.message) e.code,
      rfl, rfl, ?_⟩
    intro x hx
    simp only [List.mem_singleton] at hx
    subst hx; rfl
  | stream chunks err =>
    cases err with
    | some e =>
      refine ⟨(runChunks P initState chunks).2,
        Evt.runError P.runId P.model P.ts
          (if e.message = "" then "Unknown error occurred" else e.message)
          e.code, rfl, rfl, ?_⟩
      intro x hx
      exact runChunks_noFinish_noTerminal P chunks initState h x hx
    | none =>
      cases hl : chunks.getLast? with
      | none => simp [Admissible, singleFinishAtEnd, hl] at h
      | some clast =>
        simp only [Admissible, singleFinishAtEnd, hl, Bool.and_eq_true] at h
        obtain ⟨choice, fr, hc, hf⟩ := (hasFinish_iff clast).1 h.1
        have hdecomp := getLast?_decomp hl
        have hstream : chatStream P (VendorBehavior.stream chunks none) =
            (runChunks P initState chunks).2 := by
          simp [chatStream, processGroqStreamChunks]
        rw [hstream, hdecomp, runChunks_append]
        obtain ⟨front2, heq, hfront2⟩ :=
          stepChunk_finish_decomp P
            (runChunks P initState chunks.dropLast).1 clast choice fr hc hf
        have hlast : (runChunks P
            (runChunks P initState chunks.dropLast).1 [clast]).2 =
            (stepChunk P (runChunks P initState chunks.dropLast).1 clast).2 := by
          simp [runChunks]
        rw [hlast, heq]
        refine ⟨(runChunks P initState chunks.dropLast).2 ++ front2,
          Evt.runFinished P.runId (effModel P clast) P.ts
            (usageOut clast.usage)
            (computeFinishReason fr
              (stepChunk P
                (runChunks P initState chunks.dropLast).1 clast).1.toolCalls),
          by rw [List.append_assoc], rfl, ?_⟩
        intro x hx
        rcases List.mem_append.1 hx with hx | hx
        · exact runChunks_noFinish_noTerminal P chunks.dropLast initState
            h.2 x hx
        · exact hfront2 x hx

/-- C1, witness: the amended theorem applied to a concrete admissible
behavior (one chunk whose choice carries a `stop` finish). -/
theorem chatStream_exactly_one_terminal_witness :
    Admissible (VendorBehavior.stream [chunkFinStop] none) = true ∧
      ExactlyOneTerminalLast
        (chatStream Pex (VendorBehavior.stream [chunkFinStop] none)) :=
  ⟨rfl, chatStream_exactly_one_terminal Pex
    (VendorBehavior.stream [chunkFinStop] none) rfl⟩

end Groq

namespace Groq

/-- C5, counterexample: the SDK stream throws before yielding any chunk
(`RUN_STARTED` was not yet emitted).  The adapter's inner `catch` yields
only `RUN_ERROR`: no `RUN_STARTED` is synthesized first, contradicting
the claim that `RUN_STARTED` is emitted before the error whenever it
has not been emitted yet. -/
theorem chatStream_midstream_error_no_runStarted :
    chatStream Pex (VendorBehavior.stream []
        (some { message := "boom", code := none })) =
      [Evt.runError "run-1" "model-a" 42 "boom" none] ∧
    ∀ e ∈ chatStream Pex (VendorBehavior.stream []
        (some { message := "boom", code := none })),
      e.isRunStarted = false := by
  refine ⟨rfl, ?_⟩
  intro e he
  rw [show chatStream Pex (VendorBehavior.stream []
      (some { message := "boom", code := none })) =
      [Evt.runError "run-1" "model-a" 42 "boom" none] from rfl] at he
  simp only [List.mem_singleton] at he
  subst he; rfl

/-- C5, amended: when stream creation throws, `RUN_STARTED` is emitted
first and then exactly one `RUN_ERROR`, with nothing after it; when the
vendor iterator throws mid-stream (after any number of chunks), exactly
one `RUN_ERROR` is emitted as the final event and nothing follows it,
but no `RUN_STARTED` is synthesized by that path. -/
theorem chatStream_error_paths (P : StreamParams) (e : GroqError) :
    chatStream P (VendorBehavior.createError e) =
      [Evt.runStarted P.runId P.model P.ts,
        Evt.runError P.runId P.model P.ts
          (if e.message = "" then "Unknown error" else e.message) e.code] ∧
    ∀ chunks, ∃ front,
      chatStream P (VendorBehavior.stream chunks (some e)) =
        front ++ [Evt.runError P.runId P.model P.ts
          (if e.message = "" then "Unknown error occurred" else e.message)
          e.code] ∧
      ∀ x ∈ front, x.isRunError = false :=
  ⟨rfl, fun chunks =>
    ⟨(runChunks P initState chunks).2, rfl,
      runChunks_not_runError P initState chunks⟩⟩

/-! ### Tool-call assembly state -/

/-- Whether any chunk of the sequence carries a tool-call delta. -/
def anyToolDeltas (cs : List Chunk) : Bool :=
  cs.any (fun c => c.hasToolDeltas)

theorem setTC_length (tcs : List (Nat × ToolCallInProgress)) (i : Nat)
    (tc : ToolCallInProgress) : (setTC tcs i tc).length = tcs.length := by
  simp [setTC]

theorem stepDelta_toolCalls_ne_nil (model : String) (P : StreamParams)
    (st : StreamState) (d : ToolCallDelta) :
    (stepDelta model P st d).1.toolCalls ≠ [] := by
  unfold stepDelta
  intro hnil
  have hlen := congrArg List.length hnil
  rw [setTC_length] at hlen
  split at hlen
  · simp at hlen
  · rename_i hlook
    have hne : st.toolCalls ≠ [] := by
      intro h0
      exact hlook (by rw [h0]; rfl)
    exact hne (List.length_eq_zero.mp hlen)

theorem stepDeltas_toolCalls_state (model : String) (P : StreamParams)
    (st : StreamState) (ds : List ToolCallDelta) :
    (ds = [] ∧ (stepDeltas model P st ds).1 = st) ∨
      (ds ≠ [] ∧ (stepDeltas model P st ds).1.toolCalls ≠ []) := by
  induction ds generalizing st with
  | nil => exact Or.inl ⟨rfl, rfl⟩
  | cons d ds ih =>
    refine Or.inr ⟨by simp, ?_⟩
    rcases ih (stepDelta model P st d).1 with ⟨hds, hst⟩ | ⟨_, hne⟩
    · subst hds
      simpa [stepDeltas, hst] using
        stepDelta_toolCalls_ne_nil model P st d
    · simpa [stepDeltas] using hne

theorem afterRunStarted_toolCalls (st : StreamState) :
    (afterRunStarted st).toolCalls = st.toolCalls := by
  unfold afterRunStarted
  split <;> rfl

theorem afterContent_toolCalls (st : StreamState) (content : String) :
    (afterContent st content).toolCalls = st.toolCalls := by
  unfold afterContent
  split <;> rfl

theorem stepChunk_toolCalls_nil_iff (P : StreamParams) (st : StreamState)
    (c : Chunk) :
    ((stepChunk P st c).1.toolCalls = [] ↔
      st.toolCalls = [] ∧ c.hasToolDeltas = false) := by
  cases hc : c.choices.head? with
  | none =>
    have htd : c.hasToolDeltas = false := by
      unfold Chunk.hasToolDeltas; rw [hc]
    rw [stepChunk_none P st c hc, htd]
    simp
  | some choice =>
    have htd : c.hasToolDeltas = !choice.delta.tool_calls.isEmpty := by
      unfold Chunk.hasToolDeltas; rw [hc]
    rw [stepChunk_state P st c choice hc, htd]
    rcases stepDeltas_toolCalls_state (effModel P c) P
        (afterContent (afterRunStarted st) choice.delta.content)
        choice.delta.tool_calls with ⟨hds, hst⟩ | ⟨hds, hne⟩
    · rw [hst, afterContent_toolCalls, afterRunStarted_toolCalls, hds]
      simp
    · have h2 : choice.delta.tool_calls.isEmpty = false := by
        simpa [List.isEmpty_iff] using hds
      simp [hne, h2]

theorem runChunks_toolCalls_nil_iff (P : StreamParams) :
    ∀ (cs : List Chunk) (st : StreamState),
      ((runChunks P st cs).1.toolCalls = [] ↔
        st.toolCalls = [] ∧ anyToolDeltas cs = false) := by
  intro cs
  induction cs with
  | nil => intro st; simp [runChunks, anyToolDeltas]
  | cons c cs ih =>
    intro st
    simp only [runChunks, ih, stepChunk_toolCalls_nil_iff, anyToolDeltas,
      List.any_cons, Bool.or_eq_false_iff]
    tauto

end Groq

namespace Groq

/-- A chunk carrying only a `content_filter` finish signal. -/
def chunkFinContentFilter : Chunk :=
  { model := "m2"
    choices := [{ delta := { content := "", tool_calls := [] }
                  finish_reason := some GroqFinishReason.content_filter }]
    usage := none }

/-- C6, counterexample: on a one-chunk stream finishing with the vendor
reason `content_filter` and no tool calls, `chatStream` reports
`finishReason = stop`.  `content_filter` belongs to the canonical
finish-reason set, so "the vendor's reason is passed through" would
require `content_filter`. -/
theorem chatStream_content_filter_mapped_to_stop :
    chatStream Pex (VendorBehavior.stream [chunkFinContentFilter] none) =
      [Evt.runStarted "run-1" "m2" 42,
        Evt.runFinished "run-1" "m2" 42 none CanonReason.stop] ∧
    CanonReason.stop ≠ CanonReason.content_filter :=
  ⟨rfl, by decide⟩

/-- C6, amended: on a completed stream whose unique finish signal is in
the final chunk, the emitted `RUN_FINISHED` carries `tool_calls`
whenever the vendor reported `tool_calls` or any tool-call delta was
assembled during the stream; otherwise the vendor's `length` passes
through and every other vendor reason (`stop`, `content_filter`,
`function_call`) is mapped to `stop`. -/
theorem chatStream_finishReason (P : StreamParams) (chunks : List Chunk)
    (clast : Chunk) (choice : Choice) (fr : GroqFinishReason)
    (hl : chunks.getLast? = some clast)
    (hpre : noFinishChunks chunks.dropLast = true)
    (hc : clast.choices.head? = some choice)
    (hf : choice.finish_reason = some fr) :
    ∃ front,
      chatStream P (VendorBehavior.stream chunks none) = front ++
        [Evt.runFinished P.runId (effModel P clast) P.ts
          (usageOut clast.usage)
          (if fr = GroqFinishReason.tool_calls ∨ anyToolDeltas chunks = true
           then CanonReason.tool_calls
           else if fr = GroqFinishReason.length then CanonReason.length
           else CanonReason.stop)] ∧
      ∀ e ∈ front, e.isTerminal = false := by
  have hdecomp := getLast?_decomp hl
  have hstream : chatStream P (VendorBehavior.stream chunks none) =
      (runChunks P initState chunks).2 := by
    simp [chatStream, processGroqStreamChunks]
  obtain ⟨front2, heq, hfront2⟩ :=
    stepChunk_finish_decomp P
      (runChunks P initState chunks.dropLast).1 clast choice fr hc hf
  have hreason :
      computeFinishReason fr
        (stepChunk P (runChunks P initState chunks.dropLast).1
          clast).1.toolCalls =
      (if fr = GroqFinishReason.tool_calls ∨ anyToolDeltas chunks = true
       then CanonReason.tool_calls
       else if fr = GroqFinishReason.length then CanonReason.length
       else CanonReason.stop) := by
    have hstate : (stepChunk P
        (runChunks P initState chunks.dropLast).1 clast).1 =
        (runChunks P initState chunks).1 := by
      conv_rhs => rw [hdecomp]
      rw [runChunks_append]
      simp [runChunks]
    rw [hstate]
    have hiff : 0 < ((runChunks P initState chunks).1.toolCalls).length ↔
        anyToolDeltas chunks = true := by
      rw [List.length_pos, ne_eq]
      rw [show ((runChunks P initState chunks).1.toolCalls = [] ↔
          initState.toolCalls = [] ∧ anyToolDeltas chunks = false) from
        runChunks_toolCalls_nil_iff P chunks initState]
      simp [initState]
    unfold computeFinishReason
    by_cases htc : fr = GroqFinishReason.tool_calls ∨
        anyToolDeltas chunks = true
    · rw [if_pos, if_pos htc]
      rcases htc with htc | htc
      · exact Or.inl htc
      · exact Or.inr (hiff.mpr htc)
    · rw [if_neg, if_neg htc]
      intro hcontra
      rcases hcontra with hcontra | hcontra
      · exact htc (Or.inl hcontra)
      · exact htc (Or.inr (hiff.mp hcontra))
  refine ⟨(runChunks P initState chunks.dropLast).2 ++ front2, ?_, ?_⟩
  · rw [hstream]
    conv_lhs => rw [hdecomp]
    rw [runChunks_append]
    rw [show (runChunks P
        (runChunks P initState chunks.dropLast).1 [clast]).2 =
        (stepChunk P (runChunks P initState chunks.dropLast).1 clast).2 by
      simp [runChunks]]
    rw [heq, hreason, List.append_assoc]
  · intro x hx
    rcases List.mem_append.1 hx with hx | hx
    · exact runChunks_noFinish_noTerminal P chunks.dropLast initState
        hpre x hx
    · exact hfront2 x hx

/-- C6, witness: the amended theorem applied to a concrete stream (one
chunk finishing with `stop`, no tool calls): the reported reason is
`stop`. -/
theorem chatStream_finishReason_witness :
    ([chunkFinStop].getLast? = some chunkFinStop) ∧
      noFinishChunks ([chunkFinStop].dropLast) = true ∧
      (∃ front,
        chatStream Pex (VendorBehavior.stream [chunkFinStop] none) = front ++
          [Evt.runFinished "run-1" "m2" 42 none CanonReason.stop] ∧
        ∀ e ∈ front, e.isTerminal = false) := by
  refine ⟨rfl, rfl, ?_⟩
  have h := chatStream_finishReason Pex [chunkFinStop] chunkFinStop
    { delta := { content := "", tool_calls := [] }
      finish_reason := some GroqFinishReason.stop }
    GroqFinishReason.stop rfl rfl rfl rfl
  simpa using h

end Groq

namespace Groq

/-- C10: every event of one `chatStream` invocation carries the single
timestamp captured when the invocation began. -/
theorem chatStream_constant_timestamp (P : StreamParams)
    (b : VendorBehavior) : ∀ e ∈ chatStream P b, e.timestamp = P.ts := by
  intro e he
  cases b with
  | createError err =>
    simp only [chatStream, List.mem_cons, List.mem_singleton,
      List.not_mem_nil, or_false] at he
    rcases he with rfl | rfl <;> rfl
  | stream chunks err =>
    simp only [chatStream, processGroqStreamChunks, List.mem_append] at he
    rcases he with h | h
    · exact timestamp_runChunks P initState chunks e h
    · cases err with
      | none => simp at h
      | some ge =>
        simp only [List.mem_singleton] at h
        subst h; rfl

/-- C10, witness: the constant-timestamp theorem applied to the
concrete one-chunk stream: its `RUN_STARTED` event carries `Pex.ts`. -/
theorem chatStream_constant_timestamp_witness :
    (Evt.runStarted "run-1" "m2" 42 ∈
      chatStream Pex (VendorBehavior.stream [chunkFinStop] none)) ∧
    (Evt.runStarted "run-1" "m2" 42).timestamp = Pex.ts := by
  have hm : Evt.runStarted "run-1" "m2" 42 ∈
      chatStream Pex (VendorBehavior.stream [chunkFinStop] none) := by
    rw [show chatStream Pex (VendorBehavior.stream [chunkFinStop] none) =
      [Evt.runStarted "run-1" "m2" 42,
        Evt.runFinished "run-1" "m2" 42 none CanonReason.stop] from rfl]
    exact List.mem_cons_self _ _
  exact ⟨hm, chatStream_constant_timestamp Pex
    (VendorBehavior.stream [chunkFinStop] none) _ hm⟩

end Groq

/-! ## C2: accumulated text content -/

/-- Concatenation of a list of strings, in order. -/
def concatStrs : List String → String
  | [] => ""
  | s :: rest => s ++ concatStrs rest

theorem concatStrs_append (l1 l2 : List String) :
    concatStrs (l1 ++ l2) = concatStrs l1 ++ concatStrs l2 := by
  induction l1 with
  | nil => simp [concatStrs]
  | cons s l1 ih => simp [concatStrs, ih, String.append_assoc]

namespace Groq

/-- The `delta` field of a text-content or tool-call-args event. -/
def Evt.deltaOf : Evt → String
  | Evt.textMessageContent _ _ _ d _ => d
  | Evt.toolCallArgs _ _ _ d => d
  | _ => ""

/-- The accumulated `content` field of a text-content event. -/
def Evt.contentOf : Evt → String
  | Evt.textMessageContent _ _ _ _ c => c
  | _ => ""

/-- The `messageId` field of a text event. -/
def Evt.messageIdOf : Evt → String
  | Evt.textMessageStart m _ _ => m
  | Evt.textMessageContent m _ _ _ _ => m
  | Evt.textMessageEnd m _ _ => m
  | _ => ""

/-- The `TEXT_MESSAGE_CONTENT` events of a stream, in emission order. -/
def textContentEvts (evts : List Evt) : List Evt :=
  evts.filter Evt.isTextContent

theorem textContentEvts_append (l1 l2 : List Evt) :
    textContentEvts (l1 ++ l2) = textContentEvts l1 ++ textContentEvts l2 := by
  simp [textContentEvts]

/-- Per-chunk shape of the text-content events: none (content absent),
or exactly one whose `content` extends the previous accumulator by its
`delta`. -/
theorem stepChunk_textEvts (P : StreamParams) (st : StreamState)
    (c : Chunk) :
    (textContentEvts (stepChunk P st c).2 = [] ∧
      (stepChunk P st c).1.accumulatedContent = st.accumulatedContent) ∨
    (∃ model d, d ≠ "" ∧
      textContentEvts (stepChunk P st c).2 =
        [Evt.textMessageContent P.messageId model P.ts d
          (st.accumulatedContent ++ d)] ∧
      (stepChunk P st c).1.accumulatedContent =
        st.accumulatedContent ++ d) := by
  cases hc : c.choices.head? with
  | none =>
    rw [stepChunk_none P st c hc]
    exact Or.inl ⟨rfl, rfl⟩
  | some choice =>
    have hst := stepChunk_state P st c choice hc
    have hdeltasAcc : ∀ (s : StreamState) (ds : List ToolCallDelta),
        (stepDeltas (effModel P c) P s ds).1.accumulatedContent =
          s.accumulatedContent := by
      intro s ds
      induction ds generalizing s with
      | nil => rfl
      | cons d ds ih => simp only [stepDeltas]; rw [ih]; rfl
    have hdeltasText : ∀ (s : StreamState) (ds : List ToolCallDelta),
        textContentEvts (stepDeltas (effModel P c) P s ds).2 = [] := by
      intro s ds
      refine List.filter_eq_nil_iff.mpr ?_
      intro e he
      simp [(stepDeltas_not_terminal _ P _ _ e he).2.2.1]
    have hrs : textContentEvts (runStartedEvts (effModel P c) P st) = [] := by
      refine List.filter_eq_nil_iff.mpr ?_
      intro e he
      rw [runStartedEvts_mem _ P _ e he]
      simp [Evt.isTextContent]
    have hfin : textContentEvts
        ((match choice.finish_reason with
          | none => []
          | some fr =>
            finishEvents (effModel P c) P
              (stepDeltas (effModel P c) P
                (afterContent (afterRunStarted st) choice.delta.content)
                choice.delta.tool_calls).1 fr c.usage) : List Evt) = [] := by
      cases hf : choice.finish_reason with
      | none => rfl
      | some fr =>
        refine List.filter_eq_nil_iff.mpr ?_
        intro e he
        replace he : e ∈ finishEvents (effModel P c) P
            (stepDeltas (effModel P c) P
              (afterContent (afterRunStarted st) choice.delta.content)
              choice.delta.tool_calls).1 fr c.usage := he
        rw [finishEvents_decomp] at he
        simp only [List.mem_append, List.mem_singleton] at he
        rcases he with (h | h) | h
        · simp [(toolCallEndEvts_not_terminal _ P _ _ e h).2.2.1]
        · simp [(textEndEvts_not_terminal _ P _ e h).2.2.1]
        · subst h; simp [Evt.isTextContent]
    rw [stepChunk_events P st c choice hc]
    rw [textContentEvts_append, textContentEvts_append, textContentEvts_append,
      hrs, hdeltasText, hfin]
    by_cases hcontent : choice.delta.content = ""
    · refine Or.inl ⟨?_, ?_⟩
      · simp [contentEvts, hcontent, textContentEvts]
      · rw [hst, hdeltasAcc]
        unfold afterContent
        rw [hcontent]
        simp only [ne_eq, not_true_eq_false, if_false]
        unfold afterRunStarted
        split <;> rfl
    · refine Or.inr ⟨effModel P c, choice.delta.content, hcontent, ?_, ?_⟩
      · have hacc1 : (afterRunStarted st).accumulatedContent =
            st.accumulatedContent := by
          unfold afterRunStarted; split <;> rfl
        simp only [contentEvts, if_pos hcontent]
        rw [textContentEvts_append]
        have h1 : textContentEvts
            (if (afterRunStarted st).hasEmittedTextMessageStart = false then
              [Evt.textMessageStart P.messageId (effModel P c) P.ts]
            else []) = [] := by
          split <;> rfl
        rw [h1, hacc1]
        rfl
      · have hacc1 : (afterRunStarted st).accumulatedContent =
            st.accumulatedContent := by
          unfold afterRunStarted; split <;> rfl
        rw [hst, hdeltasAcc]
        unfold afterContent
        rw [if_pos hcontent, hacc1]

end Groq

namespace Groq

/-- Run-level text invariant: the accumulator equals the previous
accumulator extended by all emitted text deltas, and every text-content
event's `content` equals the previous accumulator extended by the
deltas up to and including it. -/
theorem runChunks_text (P : StreamParams) :
    ∀ (cs : List Chunk) (st : StreamState),
      ((runChunks P st cs).1.accumulatedContent =
        st.accumulatedContent ++
          concatStrs ((textContentEvts (runChunks P st cs).2).map
            Evt.deltaOf)) ∧
      (∀ pre e post,
        textContentEvts (runChunks P st cs).2 = pre ++ e :: post →
        e.contentOf = st.accumulatedContent ++
          concatStrs ((pre ++ [e]).map Evt.deltaOf)) := by
  intro cs
  induction cs with
  | nil =>
    intro st
    refine ⟨by simp [runChunks, textContentEvts, concatStrs], ?_⟩
    intro pre e post h
    simp only [runChunks, textContentEvts, List.filter_nil] at h
    exact absurd h.symm (by simp)
  | cons c cs ih =>
    intro st
    have hsplit : textContentEvts (runChunks P st (c :: cs)).2 =
        textContentEvts (stepChunk P st c).2 ++
          textContentEvts (runChunks P (stepChunk P st c).1 cs).2 := by
      simp only [runChunks]
      exact textContentEvts_append _ _
    have hacc : (runChunks P st (c :: cs)).1 =
        (runChunks P (stepChunk P st c).1 cs).1 := by
      simp [runChunks]
    rcases stepChunk_textEvts P st c with ⟨hnil, haccs⟩ |
        ⟨model, d, hd, hone, haccs⟩
    · refine ⟨?_, ?_⟩
      · rw [hacc, (ih (stepChunk P st c).1).1, haccs, hsplit, hnil]
        simp
      · intro pre e post h
        rw [hsplit, hnil, List.nil_append] at h
        have := (ih (stepChunk P st c).1).2 pre e post h
        rw [this, haccs]
    · refine ⟨?_, ?_⟩
      · rw [hacc, (ih (stepChunk P st c).1).1, haccs, hsplit, hone]
        simp only [List.singleton_append, List.map_cons, concatStrs,
          Evt.deltaOf]
        simp [String.append_assoc]
      · intro pre e post h
        rw [hsplit, hone] at h
        cases pre with
        | nil =>
          simp only [List.singleton_append, List.nil_append,
            List.cons.injEq] at h
          rw [← h.1]
          simp [Evt.contentOf, Evt.deltaOf, concatStrs, String.append_empty]
        | cons x pre' =>
          simp only [List.singleton_append, List.cons_append,
            List.cons.injEq] at h
          obtain ⟨rfl, h2⟩ := h
          have := (ih (stepChunk P st c).1).2 pre' e post h2
          rw [this, haccs]
          simp only [List.map_cons, concatStrs, Evt.deltaOf]
          rw [String.append_assoc]
          rfl

end Groq

namespace OpenAI

def OEvt.isContent : OEvt → Bool
  | OEvt.content _ _ _ _ _ => true
  | _ => false

def OEvt.deltaOf : OEvt → String
  | OEvt.content _ _ _ d _ => d
  | _ => ""

def OEvt.contentOf : OEvt → String
  | OEvt.content _ _ _ _ c => c
  | _ => ""

/-- The `content` chunks of one OpenAI stream, in emission order. -/
def contentOEvts (evts : List OEvt) : List OEvt :=
  evts.filter OEvt.isContent

theorem contentOEvts_append (l1 l2 : List OEvt) :
    contentOEvts (l1 ++ l2) = contentOEvts l1 ++ contentOEvts l2 := by
  simp [contentOEvts]

theorem stepChunk_contentEvts (ts : Nat) (defCallId : String) (acc : String)
    (c : Chunk) :
    (contentOEvts (stepChunk ts defCallId acc c).2 = [] ∧
      (stepChunk ts defCallId acc c).1 = acc) ∨
    (∃ d, d ≠ "" ∧
      contentOEvts (stepChunk ts defCallId acc c).2 =
        [OEvt.content c.id c.model ts d (acc ++ d)] ∧
      (stepChunk ts defCallId acc c).1 = acc ++ d) := by
  unfold stepChunk
  cases hc : c.choices.head? with
  | none => exact Or.inl ⟨rfl, rfl⟩
  | some choice =>
    have htc : contentOEvts (choice.delta.tool_calls.map (fun tc =>
        OEvt.tool_call c.id c.model ts
          (if tc.id = "" then defCallId else tc.id) tc.fname tc.fargs
          (tc.index.getD 0))) = [] := by
      refine List.filter_eq_nil_iff.mpr ?_
      intro e he
      simp only [List.mem_map] at he
      obtain ⟨tc, _, rfl⟩ := he
      simp [OEvt.isContent]
    have hfin : ∀ (fr? : Option Groq.GroqFinishReason)
        (u : Option Groq.UsageOut) (i m : String),
        contentOEvts
          ((match fr? with
            | none => []
            | some fr => [OEvt.done i m ts fr u]) : List OEvt) = [] := by
      intro fr? u i m
      cases fr? <;> rfl
    by_cases hcontent : choice.delta.content = ""
    · refine Or.inl ⟨?_, ?_⟩
      · simp only [hcontent, ne_eq, not_true_eq_false, if_false,
          List.nil_append]
        rw [contentOEvts_append, htc, hfin]
        simp
      · simp [hcontent]
    · refine Or.inr ⟨choice.delta.content, hcontent, ?_, ?_⟩
      · simp only [if_pos hcontent]
        rw [contentOEvts_append, contentOEvts_append, htc, hfin]
        simp [contentOEvts, OEvt.isContent]
      · simp [if_pos hcontent]

/-- Run-level content invariant for the OpenAI stream loop. -/
theorem runChunks_text_openai (ts : Nat) (defCallId : String) :
    ∀ (cs : List Chunk) (acc : String),
      ((runChunks ts defCallId acc cs).1 =
        acc ++ concatStrs ((contentOEvts (runChunks ts defCallId acc cs).2).map
          OEvt.deltaOf)) ∧
      (∀ pre e post,
        contentOEvts (runChunks ts defCallId acc cs).2 = pre ++ e :: post →
        e.contentOf = acc ++ concatStrs ((pre ++ [e]).map OEvt.deltaOf)) := by
  intro cs
  induction cs with
  | nil =>
    intro acc
    refine ⟨by simp [runChunks, contentOEvts, concatStrs], ?_⟩
    intro pre e post h
    simp only [runChunks, contentOEvts, List.filter_nil] at h
    exact absurd h.symm (by simp)
  | cons c cs ih =>
    intro acc
    have hsplit : contentOEvts (runChunks ts defCallId acc (c :: cs)).2 =
        contentOEvts (stepChunk ts defCallId acc c).2 ++
          contentOEvts (runChunks ts defCallId
            (stepChunk ts defCallId acc c).1 cs).2 := by
      simp only [runChunks]
      exact contentOEvts_append _ _
    have hacc : (runChunks ts defCallId acc (c :: cs)).1 =
        (runChunks ts defCallId (stepChunk ts defCallId acc c).1 cs).1 := by
      simp [runChunks]
    rcases stepChunk_contentEvts ts defCallId acc c with ⟨hnil, haccs⟩ |
        ⟨d, hd, hone, haccs⟩
    · refine ⟨?_, ?_⟩
      · rw [hacc, (ih (stepChunk ts defCallId acc c).1).1, haccs, hsplit, hnil]
        simp [haccs]
      · intro pre e post h
        rw [hsplit, hnil, List.nil_append] at h
        have := (ih (stepChunk ts defCallId acc c).1).2 pre e post h
        rw [this, haccs]
    · refine ⟨?_, ?_⟩
      · rw [hacc, (ih (stepChunk ts defCallId acc c).1).1, haccs, hsplit, hone]
        simp only [List.singleton_append, List.map_cons, concatStrs,
          OEvt.deltaOf]
        simp [haccs, String.append_assoc]
      · intro pre e post h
        rw [hsplit, hone] at h
        cases pre with
        | nil =>
          simp only [List.singleton_append, List.nil_append,
            List.cons.injEq] at h
          rw [← h.1]
          simp [OEvt.contentOf, OEvt.deltaOf, concatStrs, String.append_empty]
        | cons x pre' =>
          simp only [List.singleton_append, List.cons_append,
            List.cons.injEq] at h
          obtain ⟨rfl, h2⟩ := h
          have := (ih (stepChunk ts defCallId acc c).1).2 pre' e post h2
          rw [this, haccs]
          simp only [List.map_cons, concatStrs, OEvt.deltaOf]
          rw [String.append_assoc]
          rfl

end OpenAI

namespace Groq

/-- Every text-content event of a run carries the invocation's single
`messageId`. -/
theorem textContentEvts_messageId (P : StreamParams) :
    ∀ (cs : List Chunk) (st : StreamState),
      ∀ e ∈ textContentEvts (runChunks P st cs).2,
        Evt.messageIdOf e = P.messageId := by
  intro cs
  induction cs with
  | nil => intro st e he; simp [runChunks, textContentEvts] at he
  | cons c cs ih =>
    intro st e he
    rw [show textContentEvts (runChunks P st (c :: cs)).2 =
        textContentEvts (stepChunk P st c).2 ++
          textContentEvts (runChunks P (stepChunk P st c).1 cs).2 from by
      simp only [runChunks]; exact textContentEvts_append _ _] at he
    rcases List.mem_append.1 he with h | h
    · rcases stepChunk_textEvts P st c with ⟨hnil, -⟩ | ⟨model, d, -, hone, -⟩
      · rw [hnil] at h; simp at h
      · rw [hone] at h
        simp only [List.mem_singleton] at h
        subst h; rfl
    · exact ih _ e h

/-- The text-content events of a `chatStream` invocation are exactly
those of its chunk loop (the error paths add no text events). -/
theorem textContentEvts_chatStream (P : StreamParams)
    (chunks : List Chunk) (err : Option GroqError) :
    textContentEvts (chatStream P (VendorBehavior.stream chunks err)) =
      textContentEvts (runChunks P initState chunks).2 := by
  show textContentEvts ((runChunks P initState chunks).2 ++ _) = _
  rw [textContentEvts_append]
  cases err <;> simp [textContentEvts, Evt.isTextContent]

end Groq

/-- C2: in the Groq adapter every `TEXT_MESSAGE_CONTENT` event of one
invocation carries the single `messageId`, its accumulated `content`
equals the concatenation, in emission order, of the `delta` fields of
the text-content events up to and including it, and consequently the
accumulated content's length never decreases between consecutive
text-content events; the OpenAI adapter's `content` chunks satisfy the
same accumulation equation. -/
theorem adapter_text_accumulated_content :
    (∀ (P : Groq.StreamParams) (b : Groq.VendorBehavior),
      (∀ e ∈ Groq.textContentEvts (Groq.chatStream P b),
        Groq.Evt.messageIdOf e = P.messageId) ∧
      (∀ pre e post,
        Groq.textContentEvts (Groq.chatStream P b) = pre ++ e :: post →
        Groq.Evt.contentOf e =
          concatStrs ((pre ++ [e]).map Groq.Evt.deltaOf)) ∧
      (∀ pre e1 e2 post,
        Groq.textContentEvts (Groq.chatStream P b) =
          pre ++ e1 :: e2 :: post →
        (Groq.Evt.contentOf e1).length ≤ (Groq.Evt.contentOf e2).length)) ∧
    (∀ (ts : Nat) (defCallId genId optModel : String)
        (chunks : List OpenAI.Chunk) (err : Option Groq.GroqError),
      ∀ pre e post,
        OpenAI.contentOEvts
          (OpenAI.chatStream ts defCallId genId optModel chunks err) =
          pre ++ e :: post →
        OpenAI.OEvt.contentOf e =
          concatStrs ((pre ++ [e]).map OpenAI.OEvt.deltaOf)) := by
  constructor
  · intro P b
    cases b with
    | createError e =>
      refine ⟨?_, ?_, ?_⟩
      · intro e he
        simp [Groq.textContentEvts, Groq.chatStream,
          Groq.Evt.isTextContent] at he
      · intro pre e post h
        rw [show Groq.textContentEvts (Groq.chatStream P
            (Groq.VendorBehavior.createError _)) = [] from rfl] at h
        exact absurd h.symm (by simp)
      · intro pre e1 e2 post h
        rw [show Groq.textContentEvts (Groq.chatStream P
            (Groq.VendorBehavior.createError _)) = [] from rfl] at h
        exact absurd h.symm (by simp)
    | stream chunks err =>
      have hce := Groq.textContentEvts_chatStream P chunks err
      have hsplit := (Groq.runChunks_text P chunks Groq.initState).2
      have hsplitTop : ∀ pre e post,
          Groq.textContentEvts (Groq.chatStream P
            (Groq.VendorBehavior.stream chunks err)) = pre ++ e :: post →
          Groq.Evt.contentOf e =
            concatStrs ((pre ++ [e]).map Groq.Evt.deltaOf) := by
        intro pre e post h
        rw [hce] at h
        have := hsplit pre e post h
        rw [this]
        show Groq.initState.accumulatedContent ++ _ = _
        rw [show Groq.initState.accumulatedContent = "" from rfl,
          String.empty_append]
      refine ⟨?_, hsplitTop, ?_⟩
      · intro e he
        rw [hce] at he
        exact Groq.textContentEvts_messageId P chunks Groq.initState e he
      · intro pre e1 e2 post h
        have h1 := hsplitTop pre e1 (e2 :: post) h
        have h2 := hsplitTop (pre ++ [e1]) e2 post
          (by rw [h]; simp)
        have expand :
            concatStrs (((pre ++ [e1]) ++ [e2]).map Groq.Evt.deltaOf) =
              concatStrs ((pre ++ [e1]).map Groq.Evt.deltaOf) ++
                concatStrs ([e2].map Groq.Evt.deltaOf) := by
          rw [List.map_append, concatStrs_append]
        rw [h1, h2, expand, String.length_append]
        exact Nat.le_add_right _ _
  · intro ts defCallId genId optModel chunks err pre e post h
    have hce : OpenAI.contentOEvts
        (OpenAI.chatStream ts defCallId genId optModel chunks err) =
      OpenAI.contentOEvts (OpenAI.runChunks ts defCallId "" chunks).2 := by
      show OpenAI.contentOEvts
        ((OpenAI.runChunks ts defCallId "" chunks).2 ++ _) = _
      rw [OpenAI.contentOEvts_append]
      cases err <;> simp [OpenAI.contentOEvts, OpenAI.OEvt.isContent]
    rw [hce] at h
    have := (OpenAI.runChunks_text_openai ts defCallId chunks "").2 pre e post h
    rw [this, String.empty_append]

namespace Groq

/-- A chunk carrying only a text fragment. -/
def chunkText (s : String) : Chunk :=
  { model := "g"
    choices := [{ delta := { content := s, tool_calls := [] }
                  finish_reason := none }]
    usage := none }

end Groq

/-- C2, witness: on a concrete two-fragment stream, the second
text-content event's accumulated content is the concatenation of both
deltas. -/
theorem adapter_text_accumulated_content_witness :
    Groq.textContentEvts (Groq.chatStream Groq.Pex
        (Groq.VendorBehavior.stream
          [Groq.chunkText "Hi", Groq.chunkText " there",
            Groq.chunkFinStop] none)) =
      [Groq.Evt.textMessageContent "msg-1" "g" 42 "Hi" "Hi"] ++
        Groq.Evt.textMessageContent "msg-1" "g" 42 " there" "Hi there" ::
          [] ∧
    Groq.Evt.contentOf
        (Groq.Evt.textMessageContent "msg-1" "g" 42 " there" "Hi there") =
      concatStrs
        (([Groq.Evt.textMessageContent "msg-1" "g" 42 "Hi" "Hi"] ++
          [Groq.Evt.textMessageContent "msg-1" "g" 42 " there" "Hi there"]).map
          Groq.Evt.deltaOf) :=
  ⟨rfl,
    (adapter_text_accumulated_content.1 Groq.Pex
      (Groq.VendorBehavior.stream
        [Groq.chunkText "Hi", Groq.chunkText " there",
          Groq.chunkFinStop] none)).2.1
      [Groq.Evt.textMessageContent "msg-1" "g" 42 "Hi" "Hi"]
      (Groq.Evt.textMessageContent "msg-1" "g" 42 " there" "Hi there")
      [] rfl⟩

namespace Groq

/-- C7: on a completed stream whose unique finish signal is in the last
chunk, no `RUN_ERROR` is emitted, the stream ends with `RUN_FINISHED`,
and every in-progress tool call whose accumulated argument string fails
to parse as JSON gets a `TOOL_CALL_END` event carrying the empty object
`{}` as its parsed input. -/
theorem toolCall_parse_failure_swallowed (P : StreamParams)
    (chunks : List Chunk) (clast : Chunk) (choice : Choice)
    (fr : GroqFinishReason)
    (hl : chunks.getLast? = some clast)
    (hc : clast.choices.head? = some choice)
    (hf : choice.finish_reason = some fr) :
    (∀ e ∈ chatStream P (VendorBehavior.stream chunks none),
      e.isRunError = false) ∧
    (∃ front usage reason,
      chatStream P (VendorBehavior.stream chunks none) = front ++
        [Evt.runFinished P.runId (effModel P clast) P.ts usage reason]) ∧
    (∀ p ∈ (runChunks P initState chunks).1.toolCalls,
      jsonParse p.2.arguments = none →
      Evt.toolCallEnd p.2.id p.2.name (effModel P clast) P.ts (Json.obj [])
        ∈ chatStream P (VendorBehavior.stream chunks none)) := by
  have hstream : chatStream P (VendorBehavior.stream chunks none) =
      (runChunks P initState chunks).2 := by
    simp [chatStream, processGroqStreamChunks]
  have hdecomp := getLast?_decomp hl
  have hmid : (runChunks P initState chunks).1 =
      (stepChunk P (runChunks P initState chunks.dropLast).1 clast).1 := by
    conv_lhs => rw [hdecomp]
    rw [runChunks_append]
    simp [runChunks]
  refine ⟨?_, ?_, ?_⟩
  · intro e he
    rw [hstream] at he
    exact runChunks_not_runError P initState chunks e he
  · obtain ⟨front2, heq, -⟩ :=
      stepChunk_finish_decomp P
        (runChunks P initState chunks.dropLast).1 clast choice fr hc hf
    refine ⟨(runChunks P initState chunks.dropLast).2 ++ front2,
      usageOut clast.usage,
      computeFinishReason fr
        (stepChunk P (runChunks P initState chunks.dropLast).1
          clast).1.toolCalls, ?_⟩
    rw [hstream]
    conv_lhs => rw [hdecomp]
    rw [runChunks_append]
    rw [show (runChunks P
        (runChunks P initState chunks.dropLast).1 [clast]).2 =
        (stepChunk P (runChunks P initState chunks.dropLast).1 clast).2 by
      simp [runChunks]]
    rw [heq, List.append_assoc]
  · intro p hp hparse
    have hobj : parseArgs p.2.arguments = Json.obj [] := by
      unfold parseArgs
      split
      · rfl
      · rw [hparse]
    have hmem : Evt.toolCallEnd p.2.id p.2.name (effModel P clast) P.ts
        (Json.obj []) ∈
        toolCallEndEvts (effModel P clast) P fr
          (stepChunk P (runChunks P initState chunks.dropLast).1
            clast).1.toolCalls := by
      rw [← hmid]
      unfold toolCallEndEvts
      rw [if_pos (Or.inr (by
        rw [List.length_pos]
        intro h0
        rw [h0] at hp
        simp at hp))]
      exact List.mem_map.mpr ⟨p, hp, by simp [hobj]⟩
    rw [hstream]
    have hrw : (runChunks P initState chunks).2 =
        (runChunks P initState chunks.dropLast).2 ++
          (stepChunk P (runChunks P initState chunks.dropLast).1 clast).2 := by
      conv_lhs => rw [hdecomp]
      rw [runChunks_append]
      simp [runChunks]
    rw [hrw]
    refine List.mem_append.mpr (Or.inr ?_)
    rw [stepChunk_events_finish P _ clast choice fr hc hf,
      finishEvents_decomp]
    refine List.mem_append.mpr (Or.inr ?_)
    refine List.mem_append.mpr (Or.inl ?_)
    refine List.mem_append.mpr (Or.inl ?_)
    rw [← stepChunk_state P _ clast choice hc]
    exact hmem

/-- A chunk delivering one complete tool call with unparseable
arguments together with the finish signal. -/
def chunkToolBadArgs : Chunk :=
  { model := "g"
    choices :=
      [{ delta :=
          { content := ""
            tool_calls :=
              [{ index := 0, id := "call1", fname := "f",
                 fargs := "not json" }] }
         finish_reason := some GroqFinishReason.tool_calls }]
    usage := none }

/-- The in-progress entry assembled from `chunkToolBadArgs`. -/
def tcBadEntry : ToolCallInProgress :=
  { id := "call1", name := "f", arguments := "not json", started := true }

/-- C7, witness: on the concrete one-chunk stream whose tool call
accumulates the unparseable argument string `"not json"`, the
`TOOL_CALL_END` event carries `{}` and the stream ends with
`RUN_FINISHED`. -/
theorem toolCall_parse_failure_swallowed_witness :
    jsonParse "not json" = none ∧
    ((0, tcBadEntry) ∈
      (runChunks Pex initState [chunkToolBadArgs]).1.toolCalls) ∧
    (Evt.toolCallEnd "call1" "f" "g" 42 (Json.obj []) ∈
      chatStream Pex (VendorBehavior.stream [chunkToolBadArgs] none)) := by
  refine ⟨rfl, ?_, ?_⟩
  · rw [show (runChunks Pex initState [chunkToolBadArgs]).1.toolCalls =
      [(0, tcBadEntry)] from rfl]
    exact List.mem_singleton.mpr rfl
  · have h := (toolCall_parse_failure_swallowed Pex [chunkToolBadArgs]
      chunkToolBadArgs
      { delta :=
          { content := ""
            tool_calls :=
              [{ index := 0, id := "call1", fname := "f",
                 fargs := "not json" }] }
        finish_reason := some GroqFinishReason.tool_calls }
      GroqFinishReason.tool_calls rfl rfl rfl).2.2
    have hm : (0, tcBadEntry) ∈
        (runChunks Pex initState [chunkToolBadArgs]).1.toolCalls := by
      rw [show (runChunks Pex initState [chunkToolBadArgs]).1.toolCalls =
        [(0, tcBadEntry)] from rfl]
      exact List.mem_singleton.mpr rfl
    exact h _ hm rfl

end Groq

/-! ## Chat-client claims -/

namespace Client

/-- `updateFirstPart` leaves every element that does not satisfy the
predicate in the list. -/
theorem updateFirstPart_mem_of_not_pred (pred : Part → Bool)
    (f : Part → Part) (x : Part) :
    ∀ (l : List Part), x ∈ l → pred x = false →
      x ∈ updateFirstPart pred f l := by
  intro l
  induction l with
  | nil => intro h; simp at h
  | cons y ys ih =>
    intro hx hpred
    unfold updateFirstPart
    rcases List.mem_cons.1 hx with rfl | hmem
    · rw [if_neg (by simp [hpred])]
      exact List.mem_cons_self _ _
    · split
      · exact List.mem_cons_of_mem _ hmem
      · exact List.mem_cons_of_mem _ (ih hmem hpred)

/-- The role of every message is unchanged by the per-message part
update of `addToolResult`, so the latest assistant message of the
updated list is the update of the latest assistant message. -/
theorem find?_assistant_map (msgs : List UIMessage)
    (g : UIMessage → UIMessage) (hrole : ∀ m, (g m).role = m.role) :
    (msgs.map g).reverse.find? (fun m => m.role = "assistant") =
      (msgs.reverse.find? (fun m => m.role = "assistant")).map g := by
  rw [← List.map_reverse, List.find?_map]
  have hfun : ((fun m : UIMessage => decide (m.role = "assistant")) ∘ g) =
      (fun m : UIMessage => decide (m.role = "assistant")) := by
    funext m
    simp [Function.comp, hrole]
  rw [hfun]

/-- C4: a new connection after a tool result or an approval decision is
triggered only when every tool-call part of the latest assistant
message is terminal (state `approval-responded`, or defined output with
no approval attached); and while some tool-call part of the latest
assistant message still has an approval attached without an
`approval-responded` state, supplying a result for a different tool
call never triggers a connection. -/
theorem autoSend_gating :
    (∀ (msgs : List UIMessage) (r : ToolResultInput),
      (addToolResult msgs r).2 = true →
      ∀ m, (addToolResult msgs r).1.reverse.find?
          (fun m => m.role = "assistant") = some m →
        ∀ tc ∈ m.parts.filterMap Part.toolCallPart?,
          tc.state = "approval-responded" ∨
            (tc.output.isSome = true ∧ tc.approval = none)) ∧
    (∀ (msgs : List UIMessage) (resp : ApprovalResponse),
      (addToolApprovalResponse msgs resp).2 = true →
      ∀ m, (addToolApprovalResponse msgs resp).1.reverse.find?
          (fun m => m.role = "assistant") = some m →
        ∀ tc ∈ m.parts.filterMap Part.toolCallPart?,
          tc.state = "approval-responded" ∨
            (tc.output.isSome = true ∧ tc.approval = none)) ∧
    (∀ (msgs : List UIMessage) (r : ToolResultInput) (m : UIMessage)
        (tc : ToolCallPart),
      msgs.reverse.find? (fun m => m.role = "assistant") = some m →
      Part.toolCall tc ∈ m.parts →
      tc.approval.isSome = true →
      tc.state ≠ "approval-responded" →
      tc.id ≠ r.toolCallId →
      (addToolResult msgs r).2 = false) := by
  have hterm : ∀ (msgs' : List UIMessage),
      shouldAutoSend msgs' = true →
      ∀ m, msgs'.reverse.find? (fun m => m.role = "assistant") = some m →
        ∀ tc ∈ m.parts.filterMap Part.toolCallPart?,
          tc.state = "approval-responded" ∨
            (tc.output.isSome = true ∧ tc.approval = none) := by
    intro msgs' hsend m hm tc htc
    unfold shouldAutoSend at hsend
    rw [hm] at hsend
    replace hsend :
        (if (m.parts.filterMap Part.toolCallPart?).isEmpty = true then false
         else (m.parts.filterMap Part.toolCallPart?).all (fun part =>
           decide (part.state = "approval-responded") ||
             (part.output.isSome && part.approval.isNone))) = true := hsend
    split at hsend
    · simp at hsend
    · have hall := List.all_eq_true.1 hsend tc htc
      simp only [Bool.or_eq_true, Bool.and_eq_true, decide_eq_true_eq,
        Option.isNone_iff_eq_none] at hall
      rcases hall with h | ⟨h1, h2⟩
      · exact Or.inl h
      · exact Or.inr ⟨h1, h2⟩
  refine ⟨?_, ?_, ?_⟩
  · intro msgs r hsend m hm
    exact hterm _ hsend m hm
  · intro msgs resp hsend m hm
    exact hterm _ hsend m hm
  · intro msgs r m tc hfind hmem happ hstate hid
    show shouldAutoSend (msgs.map
      (fun m => { m with parts := applyToolResult r m.parts })) = false
    unfold shouldAutoSend
    rw [find?_assistant_map msgs
      (fun m => { m with parts := applyToolResult r m.parts })
      (fun m => rfl), hfind]
    have hmem' : Part.toolCall tc ∈ applyToolResult r m.parts := by
      unfold applyToolResult
      exact updateFirstPart_mem_of_not_pred _ _ _ m.parts hmem
        (by simp [hid])
    have htcmem : tc ∈ (applyToolResult r m.parts).filterMap
        Part.toolCallPart? :=
      List.mem_filterMap.mpr ⟨Part.toolCall tc, hmem', rfl⟩
    suffices hsuf :
        (if ((applyToolResult r m.parts).filterMap
              Part.toolCallPart?).isEmpty = true then false
         else ((applyToolResult r m.parts).filterMap
            Part.toolCallPart?).all (fun part =>
          decide (part.state = "approval-responded") ||
            (part.output.isSome && part.approval.isNone))) = false by
      exact hsuf
    rw [if_neg (by
      simp only [List.isEmpty_iff]
      intro h0
      rw [h0] at htcmem
      simp at htcmem)]
    rw [Bool.eq_false_iff]
    intro hall
    have := List.all_eq_true.1 hall tc htcmem
    simp only [Bool.or_eq_true, Bool.and_eq_true, decide_eq_true_eq,
      Option.isNone_iff_eq_none] at this
    rcases this with h | ⟨-, h2⟩
    · exact hstate h
    · rw [h2] at happ
      simp at happ

end Client

namespace Client

/-- The ordering relation of the reducer invariant: no tool-call part
after a text part. -/
def TextNotBeforeTool (a b : Part) : Prop :=
  Part.isText a = true → Part.isToolCall b = false

theorem mem_updateFirstPart (pred : Part → Bool) (f : Part → Part)
    (b : Part) :
    ∀ (l : List Part), b ∈ updateFirstPart pred f l →
      b ∈ l ∨ ∃ x ∈ l, pred x = true ∧ b = f x := by
  intro l
  induction l with
  | nil => intro h; simp [updateFirstPart] at h
  | cons y ys ih =>
    intro hb
    unfold updateFirstPart at hb
    split at hb
    · rcases List.mem_cons.1 hb with rfl | hmem
      · exact Or.inr ⟨y, List.mem_cons_self _ _, by assumption, rfl⟩
      · exact Or.inl (List.mem_cons_of_mem _ hmem)
    · rcases List.mem_cons.1 hb with rfl | hmem
      · exact Or.inl (List.mem_cons_self _ _)
      · rcases ih hmem with h | ⟨x, hx, hpx, rfl⟩
        · exact Or.inl (List.mem_cons_of_mem _ h)
        · exact Or.inr ⟨x, List.mem_cons_of_mem _ hx, hpx, rfl⟩

theorem pairwise_updateFirstPart (pred : Part → Bool) (f : Part → Part)
    (hf : ∀ x, pred x = true →
      (∀ b, TextNotBeforeTool x b → TextNotBeforeTool (f x) b) ∧
      (∀ a, TextNotBeforeTool a x → TextNotBeforeTool a (f x))) :
    ∀ (l : List Part), l.Pairwise TextNotBeforeTool →
      (updateFirstPart pred f l).Pairwise TextNotBeforeTool := by
  intro l
  induction l with
  | nil => intro h; exact h
  | cons y ys ih =>
    intro hp
    rcases List.pairwise_cons.1 hp with ⟨hy, hys⟩
    unfold updateFirstPart
    split
    · rename_i hpy
      refine List.pairwise_cons.2 ⟨?_, hys⟩
      intro b hb
      exact (hf y hpy).1 b (hy b hb)
    · refine List.pairwise_cons.2 ⟨?_, ih hys⟩
      intro b hb
      rcases mem_updateFirstPart pred f b ys hb with h | ⟨x, hx, hpx, rfl⟩
      · exact hy b h
      · exact (hf x hpx).2 y (hy x hx)

theorem set_findIndex_eq_updateFirst (pred : Part → Bool) (x : Part) :
    ∀ (l : List Part) (k : Nat), findIndex pred l = some k →
      l.set k x = updateFirstPart pred (fun _ => x) l := by
  intro l
  induction l with
  | nil => intro k h; simp [findIndex] at h
  | cons y ys ih =>
    intro k h
    unfold findIndex at h
    split at h
    · simp only [Option.some.injEq] at h
      subst h
      simp [updateFirstPart, *]
    · simp only [Option.map_eq_some'] at h
      obtain ⟨j, hj, rfl⟩ := h
      unfold updateFirstPart
      rw [if_neg (by simp [*])]
      simp only [List.set_cons_succ]
      rw [ih j hj]

/-- Insertion of a part directly before the first part satisfying the
predicate (the `parts.splice(index, 0, x)` of the source). -/
def insertBeforeFirst (pred : Part → Bool) (x : Part) : List Part → List Part
  | [] => [x]
  | y :: ys => if pred y then x :: y :: ys else y :: insertBeforeFirst pred x ys

theorem splice_findIndex_eq_insertBeforeFirst (pred : Part → Bool)
    (x : Part) :
    ∀ (l : List Part) (t : Nat), findIndex pred l = some t →
      l.take t ++ [x] ++ l.drop t = insertBeforeFirst pred x l := by
  intro l
  induction l with
  | nil => intro t h; simp [findIndex] at h
  | cons y ys ih =>
    intro t h
    unfold findIndex at h
    split at h
    · simp only [Option.some.injEq] at h
      subst h
      simp [insertBeforeFirst, *]
    · simp only [Option.map_eq_some'] at h
      obtain ⟨j, hj, rfl⟩ := h
      unfold insertBeforeFirst
      rw [if_neg (by simp [*])]
      simp only [List.take_succ_cons, List.drop_succ_cons, List.cons_append]
      rw [ih j hj]

theorem mem_insertBeforeFirst (pred : Part → Bool) (x b : Part) :
    ∀ (l : List Part), b ∈ insertBeforeFirst pred x l → b = x ∨ b ∈ l := by
  intro l
  induction l with
  | nil => intro h; simpa [insertBeforeFirst] using h
  | cons y ys ih =>
    intro hb
    unfold insertBeforeFirst at hb
    split at hb
    · rcases List.mem_cons.1 hb with rfl | h
      · exact Or.inl rfl
      · exact Or.inr h
    · rcases List.mem_cons.1 hb with rfl | h
      · exact Or.inr (List.mem_cons_self _ _)
      · rcases ih h with h1 | h1
        · exact Or.inl h1
        · exact Or.inr (List.mem_cons_of_mem _ h1)

theorem pairwise_insertBeforeFirst_text (x : Part)
    (hx : Part.isText x = false) :
    ∀ (l : List Part), l.Pairwise TextNotBeforeTool →
      (insertBeforeFirst Part.isText x l).Pairwise TextNotBeforeTool := by
  intro l
  induction l with
  | nil =>
    intro _
    exact List.pairwise_singleton _ _
  | cons y ys ih =>
    intro hp
    rcases List.pairwise_cons.1 hp with ⟨hy, hys⟩
    unfold insertBeforeFirst
    split
    · refine List.pairwise_cons.2 ⟨?_, hp⟩
      intro b _
      intro hxt
      rw [hx] at hxt
      exact absurd hxt (by simp)
    · rename_i hyt
      refine List.pairwise_cons.2 ⟨?_, ih hys⟩
      intro b hb
      rcases mem_insertBeforeFirst Part.isText x b ys hb with rfl | h
      · intro hyt2
        rw [Bool.not_eq_true] at hyt
        exact absurd hyt2 (by simp [hyt])
      · exact hy b h

theorem pairwise_of_no_text (l : List Part)
    (h : ∀ a ∈ l, Part.isText a = false) :
    l.Pairwise TextNotBeforeTool := by
  induction l with
  | nil => exact List.Pairwise.nil
  | cons y ys ih =>
    refine List.pairwise_cons.2 ⟨?_, ih (fun a ha =>
      h a (List.mem_cons_of_mem _ ha))⟩
    intro b _ hyt
    rw [h y (List.mem_cons_self _ _)] at hyt
    exact absurd hyt (by simp)

theorem findIndex_eq_none (pred : Part → Bool) :
    ∀ (l : List Part), findIndex pred l = none →
      ∀ a ∈ l, pred a = false := by
  intro l
  induction l with
  | nil => intro _ a ha; simp at ha
  | cons y ys ih =>
    intro h a ha
    unfold findIndex at h
    split at h
    · simp at h
    · rename_i hpy
      rcases List.mem_cons.1 ha with rfl | hmem
      · simpa using hpy
      · exact ih (by simpa using h) a hmem

end Client

namespace Client

theorem isToolCall_not_isText (p : Part) :
    Part.isToolCall p = true → Part.isText p = false := by
  cases p <;> simp [Part.isToolCall, Part.isText]

theorem tnbt_from_nontext {x b : Part} (hx : Part.isText x = false) :
    TextNotBeforeTool x b :=
  fun h => absurd h (by simp [hx])

theorem tnbt_to_nontool {a y : Part} (hy : Part.isToolCall y = false) :
    TextNotBeforeTool a y :=
  fun _ => hy

theorem tnbt_to_toolcall {a x y : Part} (hx : Part.isToolCall x = true)
    (h : TextNotBeforeTool a x) : TextNotBeforeTool a y := by
  intro hat
  have := h hat
  rw [hx] at this
  exact absurd this (by simp)

theorem stepRed_preserves (parts : List Part) (ev : RedEvent)
    (hp : parts.Pairwise TextNotBeforeTool) :
    (stepRed parts ev).Pairwise TextNotBeforeTool := by
  cases ev with
  | textUpdate content =>
    show (onTextUpdate content parts).Pairwise TextNotBeforeTool
    unfold onTextUpdate
    cases hfi : findIndex Part.isText parts with
    | some k =>
      show (parts.set k (Part.text content)).Pairwise TextNotBeforeTool
      rw [set_findIndex_eq_updateFirst Part.isText _ parts k hfi]
      refine pairwise_updateFirstPart _ _ ?_ parts hp
      intro x hx
      refine ⟨?_, ?_⟩
      · intro b hxb _
        exact hxb hx
      · intro a _
        exact tnbt_to_nontool rfl
    | none =>
      show ((parts.filter Part.isToolCall ++
          parts.filter (fun p => !Part.isToolCall p && !Part.isText p)) ++
          [Part.text content]).Pairwise TextNotBeforeTool
      rw [List.pairwise_append]
      refine ⟨?_, List.pairwise_singleton _ _, ?_⟩
      · rw [List.pairwise_append]
        refine ⟨?_, ?_, ?_⟩
        · refine pairwise_of_no_text _ ?_
          intro a ha
          exact isToolCall_not_isText a (List.of_mem_filter ha)
        · refine pairwise_of_no_text _ ?_
          intro a ha
          have := List.of_mem_filter ha
          simp only [Bool.and_eq_true, Bool.not_eq_true'] at this
          exact this.2
        · intro a ha b _
          exact tnbt_from_nontext
            (isToolCall_not_isText a (List.of_mem_filter ha))
      · intro a ha b _
        rcases List.mem_append.1 ha with h | h
        · exact tnbt_from_nontext
            (isToolCall_not_isText a (List.of_mem_filter h))
        · have := List.of_mem_filter h
          simp only [Bool.and_eq_true, Bool.not_eq_true'] at this
          exact tnbt_from_nontext this.2
  | toolCallChange id name state args =>
    show (onToolCallStateChange id name state args parts).Pairwise
      TextNotBeforeTool
    unfold onToolCallStateChange
    cases hfi : findIndex (fun p => match p with
      | Part.toolCall tc => tc.id = id
      | _ => false) parts with
    | some k =>
      show (parts.set k (Part.toolCall
        { id := id, name := name, arguments := args, state := state,
          output := none, approval := none })).Pairwise TextNotBeforeTool
      rw [set_findIndex_eq_updateFirst _ _ parts k hfi]
      refine pairwise_updateFirstPart _ _ ?_ parts hp
      intro x hx
      cases x with
      | toolCall tc =>
        exact ⟨fun b _ => tnbt_from_nontext rfl, fun a ha =>
          tnbt_to_toolcall
            (show Part.isToolCall (Part.toolCall tc) = true from rfl) ha⟩
      | text c => simp at hx
      | toolResult tr => simp at hx
    | none =>
      cases hft : findIndex Part.isText parts with
      | some t =>
        show (parts.take t ++ [Part.toolCall
            { id := id, name := name, arguments := args, state := state,
              output := none, approval := none }] ++
            parts.drop t).Pairwise TextNotBeforeTool
        rw [splice_findIndex_eq_insertBeforeFirst Part.isText _ parts t hft]
        exact pairwise_insertBeforeFirst_text (Part.toolCall
          { id := id, name := name, arguments := args, state := state,
            output := none, approval := none }) rfl parts hp
      | none =>
        show (parts ++ [Part.toolCall
            { id := id, name := name, arguments := args, state := state,
              output := none, approval := none }]).Pairwise TextNotBeforeTool
        rw [List.pairwise_append]
        refine ⟨hp, List.pairwise_singleton _ _, ?_⟩
        intro a ha b _
        exact tnbt_from_nontext (findIndex_eq_none Part.isText parts hft a ha)
  | toolResultChange tcid content state err =>
    show (onToolResultStateChange tcid content state err parts).Pairwise
      TextNotBeforeTool
    unfold onToolResultStateChange
    cases hfi : findIndex (fun p => match p with
      | Part.toolResult tr => tr.toolCallId = tcid
      | _ => false) parts with
    | some k =>
      show (parts.set k (Part.toolResult
        { toolCallId := tcid, content := content, state := state,
          error := err })).Pairwise TextNotBeforeTool
      rw [set_findIndex_eq_updateFirst _ _ parts k hfi]
      refine pairwise_updateFirstPart _ _ ?_ parts hp
      intro x _
      exact ⟨fun b _ => tnbt_from_nontext rfl,
        fun a _ => tnbt_to_nontool rfl⟩
    | none =>
      show (parts ++ [Part.toolResult
        { toolCallId := tcid, content := content, state := state,
          error := err }]).Pairwise TextNotBeforeTool
      rw [List.pairwise_append]
      refine ⟨hp, List.pairwise_singleton _ _, ?_⟩
      intro a _ b hb
      rcases List.mem_singleton.1 hb with rfl
      exact tnbt_to_nontool rfl
  | approvalRequested tcid aid =>
    show (onApprovalRequested tcid aid parts).Pairwise TextNotBeforeTool
    unfold onApprovalRequested
    refine pairwise_updateFirstPart _ _ ?_ parts hp
    intro x hx
    cases x with
    | toolCall tc =>
      exact ⟨fun b _ => tnbt_from_nontext rfl, fun a ha =>
        tnbt_to_toolcall
          (show Part.isToolCall (Part.toolCall tc) = true from rfl) ha⟩
    | text c => simp at hx
    | toolResult tr => simp at hx
  | toolInputAvailable tcid =>
    show (onToolInputAvailable tcid parts).Pairwise TextNotBeforeTool
    unfold onToolInputAvailable
    refine pairwise_updateFirstPart _ _ ?_ parts hp
    intro x hx
    cases x with
    | toolCall tc =>
      exact ⟨fun b _ => tnbt_from_nontext rfl, fun a ha =>
        tnbt_to_toolcall
          (show Part.isToolCall (Part.toolCall tc) = true from rfl) ha⟩
    | text c => simp at hx
    | toolResult tr => simp at hx

/-- C8: after any prefix of reducer events, no tool-call part appears
after a text part in the target assistant message's `parts` array:
every tool-call part is positioned before the text part when one
exists. -/
theorem reducer_tool_calls_before_text (events : List RedEvent) :
    (reduceParts events).Pairwise TextNotBeforeTool := by
  suffices h : ∀ (evs : List RedEvent) (parts : List Part),
      parts.Pairwise TextNotBeforeTool →
      (evs.foldl stepRed parts).Pairwise TextNotBeforeTool from
    h events [] List.Pairwise.nil
  intro evs
  induction evs with
  | nil => intro parts hp; exact hp
  | cons e evs ih =>
    intro parts hp
    exact ih (stepRed parts e) (stepRed_preserves parts e hp)

end Client

namespace Client

theorem updateFirstPart_length (pred : Part → Bool) (f : Part → Part) :
    ∀ (l : List Part), (updateFirstPart pred f l).length = l.length := by
  intro l
  induction l with
  | nil => rfl
  | cons y ys ih =>
    unfold updateFirstPart
    split <;> simp [ih]

/-- Positional description of `updateFirstPart` on a list containing at
most one element satisfying the predicate: every position holds its old
element, updated exactly when it matches. -/
theorem updateFirstPart_get? (pred : Part → Bool) (f : Part → Part) :
    ∀ (l : List Part), (l.filter pred).length ≤ 1 →
      ∀ (j : Nat) (p : Part), l.get? j = some p →
        (updateFirstPart pred f l).get? j =
          some (if pred p then f p else p) := by
  intro l
  induction l with
  | nil => intro _ j p hj; simp at hj
  | cons y ys ih =>
    intro huniq j p hj
    unfold updateFirstPart
    by_cases hpy : pred y = true
    · rw [if_pos hpy]
      cases j with
      | zero =>
        simp only [List.get?_cons_zero, Option.some.injEq] at hj
        subst hj
        simp [hpy]
      | succ j =>
        simp only [List.get?_cons_succ] at hj ⊢
        have hys : ∀ a ∈ ys, pred a = false := by
          intro a ha
          by_contra hcon
          rw [Bool.not_eq_false] at hcon
          have : 2 ≤ ((y :: ys).filter pred).length := by
            rw [List.filter_cons_of_pos hpy]
            simp only [List.length_cons, Nat.succ_le_succ_iff,
              Nat.succ_le_iff, List.length_pos]
            intro hnil
            have := List.mem_filter.mpr ⟨ha, hcon⟩
            rw [hnil] at this
            simp at this
          omega
        have hp : pred p = false :=
          hys p (List.get?_mem hj)
        rw [hj, hp]
        simp
    · rw [if_neg hpy]
      rw [Bool.not_eq_true] at hpy
      cases j with
      | zero =>
        simp only [List.get?_cons_zero, Option.some.injEq] at hj
        subst hj
        simp [hpy]
      | succ j =>
        simp only [List.get?_cons_succ] at hj ⊢
        refine ih ?_ j p hj
        rw [List.filter_cons_of_neg (by simp [hpy])] at huniq
        exact huniq

/-- C9: `addToolApprovalResponse` locates the part to update solely by
its attached approval id.  When each message holds at most one part
with the supplied approval id, the updated message list has the same
shape, every non-matching part of every message is unchanged at its
position, and exactly the matching parts transition to
`approval-responded` with the decision recorded on their approval. -/
theorem approval_update_by_id (msgs : List UIMessage)
    (resp : ApprovalResponse)
    (huniq : ∀ m ∈ msgs,
      (m.parts.filter (matchesApproval resp.id)).length ≤ 1) :
    (addToolApprovalResponse msgs resp).1.length = msgs.length ∧
    (∀ p, matchesApproval resp.id p = true →
      ∃ tc a, p = Part.toolCall tc ∧ tc.approval = some a ∧ a.id = resp.id ∧
        approvalDecisionUpdate resp p = Part.toolCall { tc with
          state := "approval-responded"
          approval := some { a with approved := some resp.approved } }) ∧
    ∀ i m, msgs.get? i = some m →
      ∃ m', (addToolApprovalResponse msgs resp).1.get? i = some m' ∧
        m'.id = m.id ∧ m'.role = m.role ∧
        m'.parts.length = m.parts.length ∧
        ∀ j p, m.parts.get? j = some p →
          m'.parts.get? j = some
            (if matchesApproval resp.id p then approvalDecisionUpdate resp p
             else p) := by
  refine ⟨?_, ?_, ?_⟩
  · show (msgs.map _).length = msgs.length
    exact List.length_map _ _
  · intro p hp
    cases p with
    | toolCall tc =>
      replace hp : (match tc.approval with
        | some a => decide (a.id = resp.id)
        | none => false) = true := hp
      cases ha : tc.approval with
      | none => rw [ha] at hp; simp at hp
      | some a =>
        rw [ha] at hp
        simp only [decide_eq_true_eq] at hp
        refine ⟨tc, a, rfl, ha, hp, ?_⟩
        show Part.toolCall { tc with
          state := "approval-responded"
          approval := match tc.approval with
            | some a => some { a with approved := some resp.approved }
            | none => none } = _
        rw [ha]
    | text c => simp [matchesApproval] at hp
    | toolResult tr => simp [matchesApproval] at hp
  · intro i m hm
    refine ⟨{ m with parts := applyApproval resp m.parts }, ?_, rfl, rfl,
      ?_, ?_⟩
    · show (msgs.map _).get? i = _
      simp only [List.get?_eq_getElem?, List.getElem?_map]
      rw [show msgs[i]? = some m from by rw [← List.get?_eq_getElem?]; exact hm]
      rfl
    · exact updateFirstPart_length _ _ m.parts
    · intro j p hj
      exact updateFirstPart_get? (matchesApproval resp.id)
        (approvalDecisionUpdate resp) m.parts
        (huniq m (List.get?_mem hm)) j p hj

end Client

namespace Client

/-- A tool-call part awaiting its approval decision. -/
def approvalPendingPart : ToolCallPart :=
  { id := "tc1", name := "danger", arguments := "\x7b\x7d",
    state := "approval-requested", output := none,
    approval := some { id := "ap1", needsApproval := true, approved := none } }

/-- A second, ordinary tool-call part of the same assistant message. -/
def otherToolPart : ToolCallPart :=
  { id := "tc2", name := "getWeather", arguments := "\x7b\"city\":\"nyc\"\x7d",
    state := "input-complete", output := none, approval := none }

/-- The latest assistant message of the concrete scenario. -/
def asstEx : UIMessage :=
  { id := "a1", role := "assistant",
    parts := [Part.toolCall approvalPendingPart, Part.toolCall otherToolPart] }

/-- The concrete message list: a user message and the assistant turn. -/
def msgsEx : List UIMessage :=
  [{ id := "u1", role := "user", parts := [Part.text "hi"] }, asstEx]

/-- The result supplied for the tool call that does not await approval. -/
def resultEx : ToolResultInput :=
  { toolCallId := "tc2", tool := "getWeather", output := Json.str "72F",
    errorText := none }

/-- C4, witness: with the approval-pending call still undecided,
supplying a result for the other call does not trigger a connection. -/
theorem autoSend_gating_witness :
    msgsEx.reverse.find? (fun m => m.role = "assistant") = some asstEx ∧
    Part.toolCall approvalPendingPart ∈ asstEx.parts ∧
    approvalPendingPart.approval.isSome = true ∧
    approvalPendingPart.state ≠ "approval-responded" ∧
    approvalPendingPart.id ≠ resultEx.toolCallId ∧
    (addToolResult msgsEx resultEx).2 = false :=
  ⟨rfl, List.mem_cons_self _ _, rfl, by decide, by decide,
    autoSend_gating.2.2 msgsEx resultEx asstEx approvalPendingPart rfl
      (List.mem_cons_self _ _) rfl (by decide) (by decide)⟩

/-- The external approval decision of the concrete scenario. -/
def respEx : ApprovalResponse := { id := "ap1", approved := true }

/-- C9, witness: on the concrete scenario the theorem applies (each
message holds at most one part carrying approval id `ap1`), the message
list keeps its length, and direct evaluation shows only the matching
part transitioned to `approval-responded` with the decision recorded. -/
theorem approval_update_by_id_witness :
    (∀ m ∈ msgsEx,
      (m.parts.filter (matchesApproval respEx.id)).length ≤ 1) ∧
    (addToolApprovalResponse msgsEx respEx).1.length = msgsEx.length ∧
    (addToolApprovalResponse msgsEx respEx).1.get? 1 = some
      { id := "a1", role := "assistant",
        parts := [Part.toolCall
          { id := "tc1", name := "danger", arguments := "\x7b\x7d",
            state := "approval-responded", output := none,
            approval := some { id := "ap1", needsApproval := true,
                               approved := some true } },
          Part.toolCall otherToolPart] } :=
  ⟨by decide, (approval_update_by_id msgsEx respEx (by decide)).1, rfl⟩

end Client

/-! ## C3: tool-call argument deltas -/

namespace Groq

/-- Whether an event is a `TOOL_CALL_ARGS` event for the given tool
call id. -/
def isArgsFor (tcid : String) : Evt → Bool
  | Evt.toolCallArgs id _ _ _ => id = tcid
  | _ => false

/-- Concatenation, in arrival order, of the `delta` fields of all
`TOOL_CALL_ARGS` events emitted for the given tool call id. -/
def argsDeltaConcat (evts : List Evt) (tcid : String) : String :=
  concatStrs ((evts.filter (isArgsFor tcid)).map Evt.deltaOf)

theorem argsDeltaConcat_append (l1 l2 : List Evt) (tcid : String) :
    argsDeltaConcat (l1 ++ l2) tcid =
      argsDeltaConcat l1 tcid ++ argsDeltaConcat l2 tcid := by
  unfold argsDeltaConcat
  rw [List.filter_append, List.map_append, concatStrs_append]

theorem argsDeltaConcat_eq_nil (l : List Evt) (tcid : String)
    (h : ∀ e ∈ l, isArgsFor tcid e = false) :
    argsDeltaConcat l tcid = "" := by
  unfold argsDeltaConcat
  rw [List.filter_eq_nil_iff.mpr (by intro e he; simp [h e he])]
  rfl

/-- The first chunk of the counterexample: an argument fragment arrives
before the tool call's id and name are known. -/
def chunkToolFragEarly : Chunk :=
  { model := "g"
    choices :=
      [{ delta :=
          { content := ""
            tool_calls :=
              [{ index := 0, id := "", fname := "", fargs := "\x7b\"a\"" }] }
         finish_reason := none }]
    usage := none }

/-- The second chunk: id and name arrive with the rest of the arguments
and the finish signal. -/
def chunkToolFragLate : Chunk :=
  { model := "g"
    choices :=
      [{ delta :=
          { content := ""
            tool_calls :=
              [{ index := 0, id := "call1", fname := "f",
                 fargs := ":1\x7d" }] }
         finish_reason := some GroqFinishReason.tool_calls }]
    usage := none }

/-- C3, counterexample: when the first argument fragment arrives before
the call's id and name, the emitted `TOOL_CALL_ARGS` deltas for
`call1` concatenate to `":1\x7d"`, which does not parse as JSON, although
the `TOOL_CALL_END` event carries the non-empty parsed input
`{"a": 1}` (parsed from the full buffer including the unreported
early fragment). -/
theorem argsDeltas_incomplete_on_early_fragment :
    argsDeltaConcat (chatStream Pex (VendorBehavior.stream
      [chunkToolFragEarly, chunkToolFragLate] none)) "call1" = ":1\x7d" ∧
    jsonParse ":1\x7d" = none ∧
    (Evt.toolCallEnd "call1" "f" "g" 42 (Json.obj [("a", Json.num "1")]) ∈
      chatStream Pex (VendorBehavior.stream
        [chunkToolFragEarly, chunkToolFragLate] none)) ∧
    Json.obj [("a", Json.num "1")] ≠ Json.obj [] := by
  refine ⟨rfl, rfl, ?_, by simp⟩
  rw [show chatStream Pex (VendorBehavior.stream
      [chunkToolFragEarly, chunkToolFragLate] none) =
    [Evt.runStarted "run-1" "g" 42,
      Evt.toolCallStart "call1" "f" "g" 42 0,
      Evt.toolCallArgs "call1" "g" 42 ":1\x7d",
      Evt.toolCallEnd "call1" "f" "g" 42 (Json.obj [("a", Json.num "1")]),
      Evt.runFinished "run-1" "g" 42 none CanonReason.tool_calls] from rfl]
  exact List.mem_cons_of_mem _ (List.mem_cons_of_mem _
    (List.mem_cons_of_mem _ (List.mem_cons_self _ _)))

end Groq

namespace Groq

/-- The tool-call deltas processed from one chunk (none when the chunk
has no choice). -/
def chunkDeltas (c : Chunk) : List ToolCallDelta :=
  match c.choices.head? with
  | none => []
  | some choice => choice.delta.tool_calls

/-- All tool-call deltas processed from a chunk sequence, in order. -/
def allDeltas (cs : List Chunk) : List ToolCallDelta :=
  (cs.map chunkDeltas).flatten

/-- Unambiguous tool-call identification: among the deltas, a non-empty
id determines the index and conversely (each index receives at most one
distinct id, distinct indices receive distinct ids). -/
def ConsistentIds (ds : List ToolCallDelta) : Prop :=
  ∀ d1 ∈ ds, ∀ d2 ∈ ds, d1.id ≠ "" → d2.id ≠ "" →
    (d1.id = d2.id ↔ d1.index = d2.index)

/-- Compatibility of the in-progress map with the deltas still to be
processed: a remaining delta addressed to an entry's index can only
repeat that entry's id (or carry none), and an entry's id never appears
at another index. -/
def CompatTC (tcs : List (Nat × ToolCallInProgress))
    (ds : List ToolCallDelta) : Prop :=
  ∀ p ∈ tcs, p.2.id ≠ "" → ∀ d ∈ ds,
    (d.index = p.1 → d.id = "" ∨ d.id = p.2.id) ∧
    (d.id = p.2.id → d.id ≠ "" → d.index = p.1)

/-- The run invariant tying the in-progress map to the emitted events:
keys are distinct, non-empty ids are distinct, started entries have a
non-empty id and an argument buffer extending the concatenation of
their emitted `TOOL_CALL_ARGS` deltas by an (unreported) prefix, and
every emitted `TOOL_CALL_ARGS` event belongs to a started entry. -/
def InvTC (tcs : List (Nat × ToolCallInProgress)) (evts : List Evt) : Prop :=
  ((tcs.map Prod.fst).Nodup) ∧
  (∀ p ∈ tcs, ∀ q ∈ tcs, p.1 ≠ q.1 → p.2.id ≠ "" → q.2.id ≠ "" →
    p.2.id ≠ q.2.id) ∧
  (∀ p ∈ tcs, p.2.started = true → p.2.id ≠ "") ∧
  (∀ p ∈ tcs, p.2.started = true →
    ∃ pre, p.2.arguments = pre ++ argsDeltaConcat evts p.2.id) ∧
  (∀ e ∈ evts, e.isToolCallArgs = true →
    ∃ p ∈ tcs, p.2.started = true ∧
      ∃ model ts dd, e = Evt.toolCallArgs p.2.id model ts dd)

theorem lookupTC_none_iff (tcs : List (Nat × ToolCallInProgress)) (i : Nat) :
    lookupTC tcs i = none ↔ ∀ p ∈ tcs, p.1 ≠ i := by
  unfold lookupTC
  cases hf : tcs.find? (fun p => p.1 = i) with
  | none =>
    simp only [true_iff]
    intro p hp
    have := List.find?_eq_none.1 hf p hp
    simpa using this
  | some p =>
    have h1 := List.find?_some hf
    have h2 := List.mem_of_find?_eq_some hf
    simp only [decide_eq_true_eq] at h1
    constructor
    · intro h; exact absurd h (by simp)
    · intro hall; exact absurd h1 (hall p h2)

theorem lookupTC_some_mem (tcs : List (Nat × ToolCallInProgress)) (i : Nat)
    (tc : ToolCallInProgress) (h : lookupTC tcs i = some tc) :
    (i, tc) ∈ tcs := by
  unfold lookupTC at h
  cases hf : tcs.find? (fun p => p.1 = i) with
  | none => rw [hf] at h; simp at h
  | some p =>
    rw [hf] at h
    simp only [Option.some.injEq] at h
    have h1 := List.find?_some hf
    have h2 := List.mem_of_find?_eq_some hf
    simp only [decide_eq_true_eq] at h1
    have : p = (i, tc) := by
      cases p with
      | mk a b =>
        simp only at h1 h
        rw [h1, h]
    rw [← this]
    exact h2

theorem keys_setTC (tcs : List (Nat × ToolCallInProgress)) (i : Nat)
    (tc : ToolCallInProgress) :
    (setTC tcs i tc).map Prod.fst = tcs.map Prod.fst := by
  unfold setTC
  rw [List.map_map]
  refine List.map_congr_left ?_
  intro p _
  simp only [Function.comp]
  split
  · rename_i h; simp [← h]
  · rfl

theorem mem_setTC_elim (tcs : List (Nat × ToolCallInProgress)) (i : Nat)
    (tc : ToolCallInProgress) (q : Nat × ToolCallInProgress)
    (h : q ∈ setTC tcs i tc) :
    q = (i, tc) ∨ (q ∈ tcs ∧ q.1 ≠ i) := by
  unfold setTC at h
  rcases List.mem_map.1 h with ⟨p, hp, hq⟩
  by_cases hpi : p.1 = i
  · rw [if_pos hpi] at hq
    exact Or.inl hq.symm
  · rw [if_neg hpi] at hq
    subst hq
    exact Or.inr ⟨hp, hpi⟩

theorem mem_setTC_self (tcs : List (Nat × ToolCallInProgress)) (i : Nat)
    (tc tc0 : ToolCallInProgress) (h : (i, tc0) ∈ tcs) :
    (i, tc) ∈ setTC tcs i tc := by
  unfold setTC
  refine List.mem_map.2 ⟨(i, tc0), h, ?_⟩
  simp

theorem mem_setTC_of_ne (tcs : List (Nat × ToolCallInProgress)) (i : Nat)
    (tc : ToolCallInProgress) (q : Nat × ToolCallInProgress)
    (hq : q ∈ tcs) (hne : q.1 ≠ i) : q ∈ setTC tcs i tc := by
  unfold setTC
  refine List.mem_map.2 ⟨q, hq, ?_⟩
  rw [if_neg hne]

theorem nodup_keys_inj (tcs : List (Nat × ToolCallInProgress))
    (hn : (tcs.map Prod.fst).Nodup) (p q : Nat × ToolCallInProgress)
    (hp : p ∈ tcs) (hq : q ∈ tcs) (h1 : p.1 = q.1) : p = q := by
  induction tcs with
  | nil => simp at hp
  | cons x xs ih =>
    simp only [List.map_cons, List.nodup_cons] at hn
    rcases List.mem_cons.1 hp with rfl | hp' <;>
      rcases List.mem_cons.1 hq with rfl | hq'
    · rfl
    · exact absurd (h1 ▸ List.mem_map_of_mem Prod.fst hq') hn.1
    · exact absurd (h1 ▸ List.mem_map_of_mem Prod.fst hp') hn.1
    · exact ih hn.2 hp' hq'

end Groq

namespace Groq

/-- The entry inserted when `!toolCallsInProgress.has(index)`. -/
def freshTC (d : ToolCallDelta) : ToolCallInProgress :=
  { id := d.id, name := d.fname, arguments := "", started := false }

/-- The `toolCallsInProgress` map after the conditional insertion. -/
def tcsIns (st : StreamState) (d : ToolCallDelta) :
    List (Nat × ToolCallInProgress) :=
  if (lookupTC st.toolCalls d.index).isNone then
    st.toolCalls ++ [(d.index, freshTC d)]
  else st.toolCalls

/-- The entry read back by `toolCallsInProgress.get(index)!`. -/
def tc0of (st : StreamState) (d : ToolCallDelta) : ToolCallInProgress :=
  (lookupTC (tcsIns st d) d.index).getD (freshTC d)

/-- The entry after merging the delta's fields. -/
def tc1of (st : StreamState) (d : ToolCallDelta) : ToolCallInProgress :=
  { id := if d.id ≠ "" then d.id else (tc0of st d).id
    name := if d.fname ≠ "" then d.fname else (tc0of st d).name
    arguments := (tc0of st d).arguments ++ d.fargs
    started := (tc0of st d).started }

/-- The entry after the conditional `started` transition. -/
def tc2of (st : StreamState) (d : ToolCallDelta) : ToolCallInProgress :=
  if (tc1of st d).id ≠ "" ∧ (tc1of st d).name ≠ "" ∧
      (tc1of st d).started = false then
    { tc1of st d with started := true }
  else tc1of st d

/-- `stepDelta` written in terms of the named pieces. -/
theorem stepDelta_eq (model : String) (P : StreamParams) (st : StreamState)
    (d : ToolCallDelta) :
    stepDelta model P st d =
      ({ st with toolCalls := setTC (tcsIns st d) d.index (tc2of st d) },
        (if (tc1of st d).id ≠ "" ∧ (tc1of st d).name ≠ "" ∧
            (tc1of st d).started = false then
          [Evt.toolCallStart (tc1of st d).id (tc1of st d).name model P.ts
            d.index]
        else []) ++
        (if d.fargs ≠ "" ∧ (tc2of st d).started = true then
          [Evt.toolCallArgs (tc2of st d).id model P.ts d.fargs]
        else [])) := rfl

theorem find?_append_none {α : Type} (l1 l2 : List α) (p : α → Bool)
    (h : l1.find? p = none) : (l1 ++ l2).find? p = l2.find? p := by
  induction l1 with
  | nil => rfl
  | cons a l1 ih =>
    rw [List.cons_append]
    cases hp : p a with
    | true => rw [List.find?_cons, hp] at h; exact absurd h (by simp)
    | false =>
      rw [List.find?_cons, hp]
      rw [List.find?_cons, hp] at h
      exact ih h

/-- Case analysis on the conditional insertion: either the index was
absent (fresh entry appended, read back) or it was present (map
untouched, existing entry read back). -/
theorem tc0of_cases (st : StreamState) (d : ToolCallDelta) :
    (lookupTC st.toolCalls d.index = none ∧ tc0of st d = freshTC d ∧
      tcsIns st d = st.toolCalls ++ [(d.index, freshTC d)]) ∨
    (lookupTC st.toolCalls d.index = some (tc0of st d) ∧
      tcsIns st d = st.toolCalls) := by
  cases h : lookupTC st.toolCalls d.index with
  | none =>
    left
    have hins : tcsIns st d = st.toolCalls ++ [(d.index, freshTC d)] := by
      unfold tcsIns
      rw [h]
      rfl
    refine ⟨rfl, ?_, hins⟩
    have hfind : st.toolCalls.find? (fun p => p.1 = d.index) = none := by
      unfold lookupTC at h
      cases hf : st.toolCalls.find? (fun p => p.1 = d.index) with
      | none => rfl
      | some q => rw [hf] at h; simp at h
    unfold tc0of
    rw [hins]
    unfold lookupTC
    rw [find?_append_none _ _ _ hfind]
    simp [List.find?]
  | some tc =>
    right
    have hins : tcsIns st d = st.toolCalls := by
      unfold tcsIns
      rw [h]
      rfl
    refine ⟨?_, hins⟩
    unfold tc0of
    rw [hins, h]
    rfl

theorem mem_tcsIns_of_mem (st : StreamState) (d : ToolCallDelta)
    (q : Nat × ToolCallInProgress) (h : q ∈ st.toolCalls) :
    q ∈ tcsIns st d := by
  unfold tcsIns
  split
  · exact List.mem_append_left _ h
  · exact h

theorem tc0of_mem (st : StreamState) (d : ToolCallDelta) :
    (d.index, tc0of st d) ∈ tcsIns st d := by
  rcases tc0of_cases st d with ⟨_, h0, hins⟩ | ⟨h0, hins⟩
  · rw [hins, h0]
    exact List.mem_append_right _ (by simp)
  · rw [hins]
    exact lookupTC_some_mem _ _ _ h0

/-- Identifying the entry read back when the key was already present
with a known member, given distinct keys. -/
theorem tc0of_of_mem_key (st : StreamState) (d : ToolCallDelta)
    (hA : (st.toolCalls.map Prod.fst).Nodup)
    (q : Nat × ToolCallInProgress) (hq : q ∈ st.toolCalls)
    (hk : q.1 = d.index) :
    tc0of st d = q.2 ∧ tcsIns st d = st.toolCalls := by
  rcases tc0of_cases st d with ⟨hnone, _, _⟩ | ⟨hsome, hins⟩
  · exact absurd hk ((lookupTC_none_iff _ _).1 hnone q hq)
  · refine ⟨?_, hins⟩
    have hmem : (d.index, tc0of st d) ∈ st.toolCalls := by
      rw [← hins]; exact tc0of_mem st d
    have hqe := nodup_keys_inj st.toolCalls hA q (d.index, tc0of st d) hq hmem hk
    rw [hqe]

theorem keys_tcsIns_nodup (st : StreamState) (d : ToolCallDelta)
    (hA : (st.toolCalls.map Prod.fst).Nodup) :
    ((tcsIns st d).map Prod.fst).Nodup := by
  rcases tc0of_cases st d with ⟨hnone, _, hins⟩ | ⟨_, hins⟩
  · rw [hins, List.map_append]
    rw [List.nodup_append]
    refine ⟨hA, by simp, ?_⟩
    intro k hk hk'
    simp only [List.map_cons, List.map_nil, List.mem_singleton] at hk'
    rcases List.mem_map.1 hk with ⟨q, hq, rfl⟩
    exact (lookupTC_none_iff _ _).1 hnone q hq hk'
  · rw [hins]; exact hA

theorem mem_tcsIns_elim (st : StreamState) (d : ToolCallDelta)
    (q : Nat × ToolCallInProgress) (h : q ∈ tcsIns st d) :
    q ∈ st.toolCalls ∨ q = (d.index, freshTC d) := by
  rcases tc0of_cases st d with ⟨_, _, hins⟩ | ⟨_, hins⟩
  · rw [hins] at h
    rcases List.mem_append.1 h with h | h
    · exact Or.inl h
    · simp only [List.mem_singleton] at h
      exact Or.inr h
  · rw [hins] at h
    exact Or.inl h

theorem tc2of_id (st : StreamState) (d : ToolCallDelta) :
    (tc2of st d).id = (tc1of st d).id := by
  unfold tc2of
  split <;> rfl

theorem tc2of_arguments (st : StreamState) (d : ToolCallDelta) :
    (tc2of st d).arguments = (tc0of st d).arguments ++ d.fargs := by
  unfold tc2of
  split <;> rfl

theorem tc1of_arguments (st : StreamState) (d : ToolCallDelta) :
    (tc1of st d).arguments = (tc0of st d).arguments ++ d.fargs := rfl

theorem tc1of_started (st : StreamState) (d : ToolCallDelta) :
    (tc1of st d).started = (tc0of st d).started := rfl

theorem tc1of_id_of_ne (st : StreamState) (d : ToolCallDelta)
    (h : d.id ≠ "") : (tc1of st d).id = d.id := by
  unfold tc1of
  simp only [h]
  rw [if_pos (by exact h)]

theorem tc1of_id_of_eq (st : StreamState) (d : ToolCallDelta)
    (h : d.id = "") : (tc1of st d).id = (tc0of st d).id := by
  unfold tc1of
  simp only []
  rw [if_neg (by simp [h])]

end Groq

namespace Groq

theorem isArgsFor_false_of_not_args (tcid : String) (e : Evt)
    (h : e.isToolCallArgs = false) : isArgsFor tcid e = false := by
  cases e <;> try rfl
  simp [Evt.isToolCallArgs] at h

theorem argsDeltaConcat_single (x m : String) (t : Nat) (dd s : String) :
    argsDeltaConcat [Evt.toolCallArgs x m t dd] s =
      if x = s then dd else "" := by
  by_cases h : x = s
  · rw [if_pos h]
    show concatStrs (List.map Evt.deltaOf
      (List.filter (isArgsFor s) [Evt.toolCallArgs x m t dd])) = dd
    rw [show List.filter (isArgsFor s) [Evt.toolCallArgs x m t dd] =
      [Evt.toolCallArgs x m t dd] from by simp [isArgsFor, h]]
    show dd ++ "" = dd
    exact String.append_empty dd
  · rw [if_neg h]
    apply argsDeltaConcat_eq_nil
    intro e he
    simp only [List.mem_singleton] at he
    subst he
    simp [isArgsFor, h]

/-- If no started entry of the map carries id `s`, then no
`TOOL_CALL_ARGS` delta for `s` has been emitted. -/
theorem argsConcat_nil_of_no_started (tcs : List (Nat × ToolCallInProgress))
    (evts : List Evt)
    (hE : ∀ e ∈ evts, e.isToolCallArgs = true →
      ∃ p ∈ tcs, p.2.started = true ∧
        ∃ model ts dd, e = Evt.toolCallArgs p.2.id model ts dd)
    (s : String) (hno : ∀ p ∈ tcs, p.2.started = true → p.2.id ≠ s) :
    argsDeltaConcat evts s = "" := by
  apply argsDeltaConcat_eq_nil
  intro e he
  cases e <;> try rfl
  rename_i a m t dd
  obtain ⟨p, hp, hps, m', t', dd', heq⟩ := hE _ he rfl
  injection heq with h1 h2 h3 h4
  simp only [isArgsFor, decide_eq_false_iff_not]
  intro h
  exact hno p hp hps (h1 ▸ h)

/-- Appending events that are not `TOOL_CALL_ARGS` preserves the run
invariant (with the map untouched). -/
theorem InvTC_append_nonargs (tcs : List (Nat × ToolCallInProgress))
    (evts extra : List Evt) (hinv : InvTC tcs evts)
    (hx : ∀ e ∈ extra, e.isToolCallArgs = false) :
    InvTC tcs (evts ++ extra) := by
  obtain ⟨hA, hB, hC, hD, hE⟩ := hinv
  refine ⟨hA, hB, hC, ?_, ?_⟩
  · intro p hp hs
    obtain ⟨pre, hpre⟩ := hD p hp hs
    refine ⟨pre, ?_⟩
    have hnil : argsDeltaConcat extra p.2.id = "" :=
      argsDeltaConcat_eq_nil extra _
        (fun e he => isArgsFor_false_of_not_args _ e (hx e he))
    rw [argsDeltaConcat_append, hnil, String.append_empty]
    exact hpre
  · intro e he hargs
    rcases List.mem_append.1 he with he | he
    · exact hE e he hargs
    · rw [hx e he] at hargs
      exact absurd hargs (by simp)

theorem ConsistentIds_mono (ds ds' : List ToolCallDelta)
    (hsub : ∀ x ∈ ds', x ∈ ds) (h : ConsistentIds ds) :
    ConsistentIds ds' := by
  intro d1 h1 d2 h2
  exact h d1 (hsub d1 h1) d2 (hsub d2 h2)

theorem CompatTC_mono (tcs : List (Nat × ToolCallInProgress))
    (ds ds' : List ToolCallDelta) (hsub : ∀ x ∈ ds', x ∈ ds)
    (h : CompatTC tcs ds) : CompatTC tcs ds' := by
  intro p hp hpid d hd
  exact h p hp hpid d (hsub d hd)

end Groq

namespace Groq

/-- One tool-call delta preserves the run invariant, and keeps the map
compatible with the remaining deltas. -/
theorem stepDelta_inv (model : String) (P : StreamParams) (st : StreamState)
    (evts : List Evt) (d : ToolCallDelta) (rest : List ToolCallDelta)
    (hInv : InvTC st.toolCalls evts)
    (hCompat : CompatTC st.toolCalls (d :: rest))
    (hCons : ConsistentIds (d :: rest)) :
    InvTC (stepDelta model P st d).1.toolCalls
      (evts ++ (stepDelta model P st d).2) ∧
    CompatTC (stepDelta model P st d).1.toolCalls rest := by
  obtain ⟨hA, hB, hC, hD, hE⟩ := hInv
  rw [stepDelta_eq]
  dsimp only
  have hAins : ((tcsIns st d).map Prod.fst).Nodup := keys_tcsIns_nodup st d hA
  have htc2mem : (d.index, tc2of st d) ∈
      setTC (tcsIns st d) d.index (tc2of st d) :=
    mem_setTC_self _ _ _ _ (tc0of_mem st d)
  have hmemElim : ∀ q ∈ setTC (tcsIns st d) d.index (tc2of st d),
      q = (d.index, tc2of st d) ∨ (q ∈ st.toolCalls ∧ q.1 ≠ d.index) := by
    intro q hq
    rcases mem_setTC_elim _ _ _ _ hq with h | ⟨hmem, hne⟩
    · exact Or.inl h
    · rcases mem_tcsIns_elim st d q hmem with h | h
      · exact Or.inr ⟨h, hne⟩
      · rw [h] at hne
        exact absurd rfl hne
  have hmemOld : ∀ q ∈ st.toolCalls, q.1 ≠ d.index →
      q ∈ setTC (tcsIns st d) d.index (tc2of st d) := by
    intro q hq hne
    exact mem_setTC_of_ne _ _ _ _ (mem_tcsIns_of_mem st d q hq) hne
  have hIdNew : ∀ q ∈ st.toolCalls, q.1 ≠ d.index → q.2.id ≠ "" →
      (tc2of st d).id ≠ "" → (tc2of st d).id ≠ q.2.id := by
    intro q hq hqk hqid hid2 heq
    rw [tc2of_id] at hid2 heq
    by_cases hd : d.id = ""
    · rw [tc1of_id_of_eq st d hd] at hid2 heq
      rcases tc0of_cases st d with ⟨_, h0, _⟩ | ⟨hsome, hins⟩
      · rw [h0] at hid2
        exact hid2 hd
      · have hmem0 : (d.index, tc0of st d) ∈ st.toolCalls := by
          rw [← hins]; exact tc0of_mem st d
        exact hB (d.index, tc0of st d) hmem0 q hq
          (fun hk => hqk hk.symm) hid2 hqid heq
    · rw [tc1of_id_of_ne st d hd] at heq
      have hix := (hCompat q hq hqid d (List.mem_cons_self d rest)).2 heq hd
      exact hqk hix.symm
  have hOldStarted : (tc0of st d).started = true →
      (d.index, tc0of st d) ∈ st.toolCalls ∧ tcsIns st d = st.toolCalls := by
    intro hs
    rcases tc0of_cases st d with ⟨_, h0, _⟩ | ⟨hsome, hins⟩
    · rw [h0] at hs
      exact absurd hs (by simp [freshTC])
    · exact ⟨by rw [← hins]; exact tc0of_mem st d, hins⟩
  have hIdStable : (d.index, tc0of st d) ∈ st.toolCalls →
      (tc0of st d).id ≠ "" → (tc1of st d).id = (tc0of st d).id := by
    intro hmem0 h0id
    by_cases hd : d.id = ""
    · exact tc1of_id_of_eq st d hd
    · rw [tc1of_id_of_ne st d hd]
      have h1 := (hCompat (d.index, tc0of st d) hmem0 h0id d
        (List.mem_cons_self d rest)).1 rfl
      rcases h1 with h | h
      · exact absurd h hd
      · exact h
  have hC2 : (tc2of st d).started = true → (tc2of st d).id ≠ "" := by
    intro hs
    rw [tc2of_id]
    unfold tc2of at hs
    split at hs
    · rename_i hcond
      exact hcond.1
    · rw [tc1of_started] at hs
      obtain ⟨hmem0, _⟩ := hOldStarted hs
      have h0id : (tc0of st d).id ≠ "" := hC _ hmem0 hs
      by_cases hd : d.id = ""
      · rw [tc1of_id_of_eq st d hd]
        exact h0id
      · rw [tc1of_id_of_ne st d hd]
        exact hd
  have hA' : ((setTC (tcsIns st d) d.index (tc2of st d)).map Prod.fst).Nodup := by
    rw [keys_setTC]
    exact hAins
  have hB' : ∀ p ∈ setTC (tcsIns st d) d.index (tc2of st d),
      ∀ q ∈ setTC (tcsIns st d) d.index (tc2of st d),
      p.1 ≠ q.1 → p.2.id ≠ "" → q.2.id ≠ "" → p.2.id ≠ q.2.id := by
    intro p hp q hq hpq hpid hqid
    rcases hmemElim p hp with rfl | ⟨hpmem, hpk⟩ <;>
      rcases hmemElim q hq with rfl | ⟨hqmem, hqk⟩
    · exact absurd rfl hpq
    · exact hIdNew q hqmem hqk hqid hpid
    · exact (hIdNew p hpmem hpk hpid hqid).symm
    · exact hB p hpmem q hqmem hpq hpid hqid
  have hC' : ∀ p ∈ setTC (tcsIns st d) d.index (tc2of st d),
      p.2.started = true → p.2.id ≠ "" := by
    intro p hp hs
    rcases hmemElim p hp with rfl | ⟨hpmem, _⟩
    · exact hC2 hs
    · exact hC p hpmem hs
  refine ⟨?_, ?_⟩
  · unfold InvTC
    refine ⟨hA', hB', hC', ?_, ?_⟩
    · -- the argument-buffer invariant
      intro p hp hs
      have hconcat : ∀ s,
          argsDeltaConcat (evts ++
            ((if (tc1of st d).id ≠ "" ∧ (tc1of st d).name ≠ "" ∧
                (tc1of st d).started = false then
              [Evt.toolCallStart (tc1of st d).id (tc1of st d).name model
                P.ts d.index]
            else []) ++
            (if d.fargs ≠ "" ∧ (tc2of st d).started = true then
              [Evt.toolCallArgs (tc2of st d).id model P.ts d.fargs]
            else []))) s =
          argsDeltaConcat evts s ++
            argsDeltaConcat
              (if d.fargs ≠ "" ∧ (tc2of st d).started = true then
                [Evt.toolCallArgs (tc2of st d).id model P.ts d.fargs]
              else []) s := by
        intro s
        rw [argsDeltaConcat_append, argsDeltaConcat_append]
        have hs0 : argsDeltaConcat
            (if (tc1of st d).id ≠ "" ∧ (tc1of st d).name ≠ "" ∧
                (tc1of st d).started = false then
              [Evt.toolCallStart (tc1of st d).id (tc1of st d).name model
                P.ts d.index]
            else []) s = "" := by
          split <;> rfl
        rw [hs0, String.empty_append]
      rcases hmemElim p hp with rfl | ⟨hpmem, hpk⟩
      · -- the updated entry
        show ∃ pre, (tc2of st d).arguments = pre ++ _
        rw [hconcat, tc2of_arguments]
        by_cases hcond : (tc1of st d).id ≠ "" ∧ (tc1of st d).name ≠ "" ∧
            (tc1of st d).started = false
        · -- newly started: nothing was emitted for this id before
          have h0not : (tc0of st d).started = false := by
            rw [← tc1of_started]
            exact hcond.2.2
          have hnilOld : argsDeltaConcat evts (tc2of st d).id = "" := by
            apply argsConcat_nil_of_no_started st.toolCalls evts hE
            intro q hq hqs heq
            have hqid : q.2.id ≠ "" := hC q hq hqs
            rw [tc2of_id] at heq
            by_cases hd : d.id = ""
            · rw [tc1of_id_of_eq st d hd] at heq
              rcases tc0of_cases st d with ⟨hnone, h0, _⟩ | ⟨hsome, hins⟩
              · have : (tc1of st d).id = "" := by
                  rw [tc1of_id_of_eq st d hd, h0]
                  exact hd
                exact hcond.1 this
              · have hmem0 : (d.index, tc0of st d) ∈ st.toolCalls := by
                  rw [← hins]; exact tc0of_mem st d
                have h0id : (tc0of st d).id ≠ "" := by
                  rw [← tc1of_id_of_eq st d hd]
                  exact hcond.1
                by_cases hk : q.1 = d.index
                · have hqe := nodup_keys_inj st.toolCalls hA q
                    (d.index, tc0of st d) hq hmem0 hk
                  rw [hqe] at hqs
                  rw [h0not] at hqs
                  exact absurd hqs (by simp)
                · exact hB (d.index, tc0of st d) hmem0 q hq
                    (fun h => hk h.symm) h0id hqid heq.symm
            · rw [tc1of_id_of_ne st d hd] at heq
              have hix := (hCompat q hq hqid d
                (List.mem_cons_self d rest)).2 heq.symm hd
              obtain ⟨h0eq, _⟩ := tc0of_of_mem_key st d hA q hq hix.symm
              rw [h0eq] at h0not
              rw [h0not] at hqs
              exact absurd hqs (by simp)
          rw [hnilOld, String.empty_append]
          by_cases hf : d.fargs = ""
          · have : ¬(d.fargs ≠ "" ∧ (tc2of st d).started = true) := by
              intro hcc
              exact hcc.1 hf
            rw [if_neg this]
            refine ⟨(tc0of st d).arguments, ?_⟩
            rw [hf]
            rfl
          · rw [if_pos ⟨hf, hs⟩, argsDeltaConcat_single, if_pos rfl]
            exact ⟨(tc0of st d).arguments, rfl⟩
        · -- already started before this delta
          have hs1 : (tc2of st d).started = (tc1of st d).started := by
            unfold tc2of
            rw [if_neg hcond]
          rw [hs1, tc1of_started] at hs
          obtain ⟨hmem0, _⟩ := hOldStarted hs
          have h0id : (tc0of st d).id ≠ "" := hC _ hmem0 hs
          have hidst : (tc2of st d).id = (tc0of st d).id := by
            rw [tc2of_id]
            exact hIdStable hmem0 h0id
          obtain ⟨pre, hpre⟩ := hD (d.index, tc0of st d) hmem0 hs
          refine ⟨pre, ?_⟩
          rw [hidst]
          by_cases hf : d.fargs = ""
          · have hneg : ¬(d.fargs ≠ "" ∧ (tc2of st d).started = true) := by
              intro hcc
              exact hcc.1 hf
            rw [if_neg hneg]
            show (tc0of st d).arguments ++ d.fargs =
              pre ++ (argsDeltaConcat evts (tc0of st d).id ++ "")
            rw [String.append_empty, hf, String.append_empty]
            exact hpre
          · have hpos : d.fargs ≠ "" ∧ (tc2of st d).started = true := by
              refine ⟨hf, ?_⟩
              rw [hs1, tc1of_started]
              exact hs
            rw [if_pos hpos, argsDeltaConcat_single, if_pos rfl]
            show (tc0of st d).arguments ++ d.fargs =
              pre ++ (argsDeltaConcat evts (tc0of st d).id ++ d.fargs)
            rw [hpre, String.append_assoc]
      · -- untouched entries: nothing new was emitted for their id
        obtain ⟨pre, hpre⟩ := hD p hpmem hs
        refine ⟨pre, ?_⟩
        rw [hconcat]
        have hnil : argsDeltaConcat
            (if d.fargs ≠ "" ∧ (tc2of st d).started = true then
              [Evt.toolCallArgs (tc2of st d).id model P.ts d.fargs]
            else []) p.2.id = "" := by
          by_cases hac : d.fargs ≠ "" ∧ (tc2of st d).started = true
          · rw [if_pos hac, argsDeltaConcat_single]
            exact if_neg (hIdNew p hpmem hpk (hC p hpmem hs) (hC2 hac.2))
          · rw [if_neg hac]
            rfl
        rw [hnil, String.append_empty]
        exact hpre
    · -- every ARGS event belongs to a started entry
      intro e he hargs
      rcases List.mem_append.1 he with he | he
      · obtain ⟨p, hp, hps, m', t', dd', heq⟩ := hE e he hargs
        by_cases hk : p.1 = d.index
        · obtain ⟨h0eq, _⟩ := tc0of_of_mem_key st d hA p hp hk
          have h0s : (tc0of st d).started = true := by
            rw [h0eq]
            exact hps
          have h0id : (tc0of st d).id ≠ "" := by
            rw [h0eq]
            exact hC p hp hps
          have hs2 : (tc2of st d).started = true := by
            unfold tc2of
            rw [if_neg ?_]
            · rw [tc1of_started]
              exact h0s
            · intro hcc
              have hcf := hcc.2.2
              rw [tc1of_started, h0s] at hcf
              exact absurd hcf (by simp)
          have hmem0 : (d.index, tc0of st d) ∈ st.toolCalls := by
            rw [h0eq]
            have hpe : (d.index, p.2) = p := by
              cases p with
              | mk a b =>
                simp only [Prod.mk.injEq]
                exact ⟨hk.symm, trivial⟩
            rw [hpe]
            exact hp
          have hid2 : (tc2of st d).id = p.2.id := by
            rw [tc2of_id, hIdStable hmem0 h0id, h0eq]
          refine ⟨(d.index, tc2of st d), htc2mem, hs2, m', t', dd', ?_⟩
          rw [heq, hid2]
        · exact ⟨p, hmemOld p hp hk, hps, m', t', dd', heq⟩
      · rcases List.mem_append.1 he with he | he
        · have hst := mem_ite_singleton he
          rw [hst] at hargs
          simp [Evt.isToolCallArgs] at hargs
        · by_cases hac : d.fargs ≠ "" ∧ (tc2of st d).started = true
          · rw [if_pos hac] at he
            simp only [List.mem_singleton] at he
            subst he
            exact ⟨(d.index, tc2of st d), htc2mem, hac.2, model, P.ts,
              d.fargs, rfl⟩
          · rw [if_neg hac] at he
            simp at he
  · -- compatibility with the remaining deltas
    intro p hp hpid d' hd'mem
    rcases hmemElim p hp with rfl | ⟨hpmem, hpk⟩
    · show (d'.index = d.index → d'.id = "" ∨ d'.id = (tc2of st d).id) ∧
        (d'.id = (tc2of st d).id → d'.id ≠ "" → d'.index = d.index)
      by_cases hd : d.id = ""
      · have h1 : (tc2of st d).id = (tc0of st d).id := by
          rw [tc2of_id, tc1of_id_of_eq st d hd]
        rcases tc0of_cases st d with ⟨_, h0, _⟩ | ⟨hsome, hins⟩
        · have : (tc2of st d).id = "" := by
            rw [h1, h0]
            exact hd
          exact absurd this hpid
        · have hmem0 : (d.index, tc0of st d) ∈ st.toolCalls := by
            rw [← hins]; exact tc0of_mem st d
          have h0id : (tc0of st d).id ≠ "" := by
            rw [← h1]
            exact hpid
          have hcp := hCompat (d.index, tc0of st d) hmem0 h0id d'
            (List.mem_cons_of_mem d hd'mem)
          constructor
          · intro hix
            rcases hcp.1 hix with h | h
            · exact Or.inl h
            · right
              rw [h1]
              exact h
          · intro hid hne
            refine hcp.2 ?_ hne
            rw [← h1]
            exact hid
      · have h1 : (tc2of st d).id = d.id := by
          rw [tc2of_id, tc1of_id_of_ne st d hd]
        constructor
        · intro hix
          by_cases hdid' : d'.id = ""
          · exact Or.inl hdid'
          · right
            have hcons := hCons d (List.mem_cons_self d rest) d'
              (List.mem_cons_of_mem d hd'mem) hd hdid'
            rw [h1]
            exact (hcons.2 hix.symm).symm
        · intro hid hne
          have h2 : d'.id = d.id := by
            rw [← h1]
            exact hid
          have hcons := hCons d (List.mem_cons_self d rest) d'
            (List.mem_cons_of_mem d hd'mem) hd hne
          exact (hcons.1 h2.symm).symm
    · exact hCompat p hpmem hpid d' (List.mem_cons_of_mem d hd'mem)

end Groq

namespace Groq

/-- The tool-call delta loop of one chunk preserves the run invariant. -/
theorem stepDeltas_inv (model : String) (P : StreamParams) (st : StreamState)
    (evts : List Evt) (ds rest : List ToolCallDelta)
    (hInv : InvTC st.toolCalls evts)
    (hCompat : CompatTC st.toolCalls (ds ++ rest))
    (hCons : ConsistentIds (ds ++ rest)) :
    InvTC (stepDeltas model P st ds).1.toolCalls
      (evts ++ (stepDeltas model P st ds).2) ∧
    CompatTC (stepDeltas model P st ds).1.toolCalls rest := by
  revert hInv hCompat hCons
  induction ds generalizing st evts with
  | nil =>
    intro hInv hCompat _
    refine ⟨?_, hCompat⟩
    show InvTC st.toolCalls (evts ++ [])
    rw [List.append_nil]
    exact hInv
  | cons d ds ih =>
    intro hInv hCompat hCons
    obtain ⟨hI1, hC1⟩ := stepDelta_inv model P st evts d (ds ++ rest)
      hInv hCompat hCons
    have hCons' : ConsistentIds (ds ++ rest) :=
      ConsistentIds_mono _ _ (fun x hx => List.mem_cons_of_mem d hx) hCons
    have hih := ih (stepDelta model P st d).1
      (evts ++ (stepDelta model P st d).2) hI1 hC1 hCons'
    rw [stepDeltas_cons]
    dsimp only
    refine ⟨?_, hih.2⟩
    have := hih.1
    rw [List.append_assoc] at this
    exact this

/-- One chunk preserves the run invariant (the non-delta events of the
chunk are never `TOOL_CALL_ARGS`, and the finish block does not touch
the map). -/
theorem stepChunk_inv (P : StreamParams) (st : StreamState) (evts : List Evt)
    (c : Chunk) (rest : List ToolCallDelta)
    (hInv : InvTC st.toolCalls evts)
    (hCompat : CompatTC st.toolCalls (chunkDeltas c ++ rest))
    (hCons : ConsistentIds (chunkDeltas c ++ rest)) :
    InvTC (stepChunk P st c).1.toolCalls (evts ++ (stepChunk P st c).2) ∧
    CompatTC (stepChunk P st c).1.toolCalls rest := by
  cases hc : c.choices.head? with
  | none =>
    rw [stepChunk_none P st c hc]
    have hnil : chunkDeltas c = [] := by
      unfold chunkDeltas
      rw [hc]
    rw [hnil] at hCompat
    refine ⟨?_, hCompat⟩
    show InvTC st.toolCalls (evts ++ [])
    rw [List.append_nil]
    exact hInv
  | some choice =>
    have hdelta : chunkDeltas c = choice.delta.tool_calls := by
      unfold chunkDeltas
      rw [hc]
    have hst2 : (afterContent (afterRunStarted st)
        choice.delta.content).toolCalls = st.toolCalls := by
      unfold afterContent afterRunStarted
      split <;> split <;> rfl
    have hnonargs1 : ∀ e ∈ runStartedEvts (effModel P c) P st ++
        contentEvts (effModel P c) P (afterRunStarted st)
          choice.delta.content,
        e.isToolCallArgs = false := by
      intro e he
      rcases List.mem_append.1 he with he | he
      · rw [runStartedEvts_mem _ P _ e he]
        rfl
      · rcases contentEvts_mem _ P _ _ e he with rfl | rfl <;> rfl
    have hI1 : InvTC (afterContent (afterRunStarted st)
        choice.delta.content).toolCalls
        (evts ++ (runStartedEvts (effModel P c) P st ++
          contentEvts (effModel P c) P (afterRunStarted st)
            choice.delta.content)) := by
      rw [hst2]
      exact InvTC_append_nonargs _ _ _ hInv hnonargs1
    have hCompat2 : CompatTC (afterContent (afterRunStarted st)
        choice.delta.content).toolCalls
        (choice.delta.tool_calls ++ rest) := by
      rw [hst2, ← hdelta]
      exact hCompat
    have hCons2 : ConsistentIds (choice.delta.tool_calls ++ rest) := by
      rw [← hdelta]
      exact hCons
    obtain ⟨hI2, hCompat3⟩ := stepDeltas_inv (effModel P c) P _ _
      choice.delta.tool_calls rest hI1 hCompat2 hCons2
    have hfin : ∀ e ∈ (match choice.finish_reason with
        | none => ([] : List Evt)
        | some fr => finishEvents (effModel P c) P
            (stepDeltas (effModel P c) P
              (afterContent (afterRunStarted st) choice.delta.content)
              choice.delta.tool_calls).1 fr c.usage),
        e.isToolCallArgs = false := by
      cases hfr : choice.finish_reason with
      | none =>
        intro e he
        simp at he
      | some fr =>
        intro e he
        replace he : e ∈ finishEvents (effModel P c) P
          (stepDeltas (effModel P c) P
            (afterContent (afterRunStarted st) choice.delta.content)
            choice.delta.tool_calls).1 fr c.usage := he
        rw [finishEvents_decomp] at he
        rcases List.mem_append.1 he with he | he
        · exact (finishEvents_front_not_terminal _ P _ fr e he).2.2.2
        · simp only [List.mem_singleton] at he
          subst he
          rfl
    have hI3 := InvTC_append_nonargs _ _ _ hI2 hfin
    refine ⟨?_, ?_⟩
    · rw [stepChunk_state P st c choice hc, stepChunk_events P st c choice hc]
      simpa [List.append_assoc] using hI3
    · rw [stepChunk_state P st c choice hc]
      exact hCompat3

/-- The chunk loop preserves the run invariant from any starting point. -/
theorem runChunks_inv (P : StreamParams) (cs : List Chunk) :
    ∀ (st : StreamState) (evts : List Evt),
      InvTC st.toolCalls evts →
      CompatTC st.toolCalls (allDeltas cs) →
      ConsistentIds (allDeltas cs) →
      InvTC (runChunks P st cs).1.toolCalls
        (evts ++ (runChunks P st cs).2) := by
  induction cs with
  | nil =>
    intro st evts hInv _ _
    show InvTC st.toolCalls (evts ++ [])
    rw [List.append_nil]
    exact hInv
  | cons c cs ih =>
    intro st evts hInv hCompat hCons
    have hall : allDeltas (c :: cs) = chunkDeltas c ++ allDeltas cs := by
      unfold allDeltas
      rw [List.map_cons, List.flatten_cons]
    rw [hall] at hCompat hCons
    obtain ⟨hI1, hC1⟩ := stepChunk_inv P st evts c (allDeltas cs)
      hInv hCompat hCons
    have hCons' : ConsistentIds (allDeltas cs) :=
      ConsistentIds_mono _ _ (fun x hx => List.mem_append_right _ hx) hCons
    have hih := ih (stepChunk P st c).1 (evts ++ (stepChunk P st c).2)
      hI1 hC1 hCons'
    rw [runChunks_cons]
    dsimp only
    simpa [List.append_assoc] using hih

theorem stepChunk_noFinish_noToolCallEnd (P : StreamParams)
    (st : StreamState) (c : Chunk) (hnf : c.hasFinish = false) :
    ∀ e ∈ (stepChunk P st c).2, e.isToolCallEnd = false := by
  intro e he
  cases hc : c.choices.head? with
  | none =>
    rw [stepChunk_none P st c hc] at he
    simp at he
  | some choice =>
    have hf : choice.finish_reason = none := by
      unfold Chunk.hasFinish at hnf
      rw [hc] at hnf
      cases hfr : choice.finish_reason with
      | none => rfl
      | some fr => simp [hfr] at hnf
    rw [stepChunk_events_noFinish P st c choice hc hf] at he
    simp only [List.mem_append] at he
    rcases he with (h | h) | h
    · rw [runStartedEvts_mem _ P _ e h]
      rfl
    · rcases contentEvts_mem _ P _ _ e h with rfl | rfl <;> rfl
    · exact (stepDeltas_not_terminal _ P _ _ e h).2.2.2

theorem runChunks_noFinish_noToolCallEnd (P : StreamParams) :
    ∀ (cs : List Chunk) (st : StreamState), noFinishChunks cs = true →
      ∀ e ∈ (runChunks P st cs).2, e.isToolCallEnd = false := by
  intro cs
  induction cs with
  | nil =>
    intro st _ e he
    simp [runChunks] at he
  | cons c cs ih =>
    intro st h e he
    simp only [noFinishChunks, List.all_cons, Bool.and_eq_true,
      Bool.not_eq_true'] at h
    simp only [runChunks, List.mem_append] at he
    rcases he with hm | hm
    · exact stepChunk_noFinish_noToolCallEnd P st c h.1 e hm
    · exact ih _ h.2 e hm

/-- A non-trivial parsed input certifies that the buffer itself parsed. -/
theorem parseArgs_some_of_ne (s : String) (v : Json) (h : parseArgs s = v)
    (hv : v ≠ Json.obj []) : jsonParse s = some v := by
  unfold parseArgs at h
  split at h
  · exact absurd h.symm hv
  · cases hj : jsonParse s with
    | none =>
      rw [hj] at h
      replace h : Json.obj [] = v := h
      exact absurd h.symm hv
    | some w =>
      rw [hj] at h
      replace h : w = v := h
      rw [h]

end Groq

namespace Groq

/-- C3 (amended): for a completed Groq stream whose tool-call deltas
identify calls consistently (a non-empty id always goes with the same
index) and whose only finish signal is in the last chunk, every
`TOOL_CALL_END` event carrying a non-trivial parsed `input` is
explained by the emitted `TOOL_CALL_ARGS` deltas up to an unreported
prefix: the concatenation, in order, of the argument deltas emitted
for that `toolCallId`, prepended with the buffered fragments that
arrived before the call was announced, parses as JSON to exactly that
`input`.  (The emitted deltas alone need not parse, as the
counterexample shows.) -/
theorem toolCallEnd_input_parses_from_args_deltas (P : StreamParams)
    (chunks : List Chunk) (clast : Chunk)
    (hCons : ConsistentIds (allDeltas chunks))
    (hlast : chunks.getLast? = some clast)
    (hnf : noFinishChunks chunks.dropLast = true)
    (cid name model : String) (ts : Nat) (v : Json)
    (hmem : Evt.toolCallEnd cid name model ts v ∈
      chatStream P (VendorBehavior.stream chunks none))
    (hv : v ≠ Json.obj []) :
    ∃ pre, jsonParse (pre ++ argsDeltaConcat
      (chatStream P (VendorBehavior.stream chunks none)) cid) = some v := by
  have hEeq : chatStream P (VendorBehavior.stream chunks none) =
      (runChunks P initState chunks).2 := by
    show (runChunks P initState chunks).2 ++ [] = _
    exact List.append_nil _
  rw [hEeq] at hmem ⊢
  have hInv0 : InvTC initState.toolCalls [] := by
    unfold InvTC
    refine ⟨?_, ?_, ?_, ?_, ?_⟩
    · simp [initState]
    · intro p hp
      simp [initState] at hp
    · intro p hp
      simp [initState] at hp
    · intro p hp
      simp [initState] at hp
    · intro e he
      simp at he
  have hCompat0 : CompatTC initState.toolCalls (allDeltas chunks) := by
    intro p hp
    simp [initState] at hp
  have hInvF := runChunks_inv P chunks initState [] hInv0 hCompat0 hCons
  rw [List.nil_append] at hInvF
  have hsplit : chunks.dropLast ++ [clast] = chunks :=
    List.dropLast_append_getLast? clast hlast
  have happ := runChunks_append P initState chunks.dropLast [clast]
  rw [hsplit] at happ
  have hev : (runChunks P initState chunks).2 =
      (runChunks P initState chunks.dropLast).2 ++
        (stepChunk P (runChunks P initState chunks.dropLast).1 clast).2 := by
    rw [happ]
    show _ ++ ((stepChunk P (runChunks P initState chunks.dropLast).1
      clast).2 ++ []) = _
    rw [List.append_nil]
  have hstate : (runChunks P initState chunks).1 =
      (stepChunk P (runChunks P initState chunks.dropLast).1 clast).1 := by
    rw [happ]
    rfl
  rw [hev] at hmem
  rcases List.mem_append.1 hmem with hm1 | hm2
  · have hz := runChunks_noFinish_noToolCallEnd P chunks.dropLast initState
      hnf _ hm1
    simp [Evt.isToolCallEnd] at hz
  · cases hc : clast.choices.head? with
    | none =>
      rw [stepChunk_none P _ clast hc] at hm2
      simp at hm2
    | some choice =>
      cases hfr : choice.finish_reason with
      | none =>
        rw [stepChunk_events_noFinish P _ clast choice hc hfr] at hm2
        simp only [List.mem_append] at hm2
        rcases hm2 with (h | h) | h
        · have hz := runStartedEvts_mem _ P _ _ h
          simp at hz
        · rcases contentEvts_mem _ P _ _ _ h with h' | h' <;> simp at h'
        · have hz := (stepDeltas_not_terminal _ P _ _ _ h).2.2.2
          simp [Evt.isToolCallEnd] at hz
      | some fr =>
        rw [stepChunk_events_finish P _ clast choice fr hc hfr] at hm2
        simp only [List.mem_append] at hm2
        rcases hm2 with ((h | h) | h) | h
        · have hz := runStartedEvts_mem _ P _ _ h
          simp at hz
        · rcases contentEvts_mem _ P _ _ _ h with h' | h' <;> simp at h'
        · have hz := (stepDeltas_not_terminal _ P _ _ _ h).2.2.2
          simp [Evt.isToolCallEnd] at hz
        · rw [finishEvents_decomp] at h
          simp only [List.mem_append, List.mem_singleton] at h
          rcases h with (h | h) | h
          · obtain ⟨p, hp, heq⟩ := toolCallEndEvts_mem _ P fr _ _ h
            injection heq with e1 _e2 _e3 _e4 e5
            have hp' : p ∈ (runChunks P initState chunks).1.toolCalls := by
              rw [hstate, stepChunk_state P _ clast choice hc]
              exact hp
            unfold InvTC at hInvF
            obtain ⟨hA, hB, hC, hD, hE⟩ := hInvF
            by_cases hps : p.2.started = true
            · obtain ⟨pre, hpre⟩ := hD p hp' hps
              refine ⟨pre, ?_⟩
              rw [e1, ← hpre]
              exact parseArgs_some_of_ne _ _ e5.symm hv
            · have hnil : argsDeltaConcat
                  (runChunks P initState chunks).2 p.2.id = "" := by
                apply argsConcat_nil_of_no_started _ _ hE
                intro q hq hqs heqid
                have hqid : q.2.id ≠ "" := hC q hq hqs
                by_cases hk : q.1 = p.1
                · have hqe := nodup_keys_inj _ hA q p hq hp' hk
                  rw [hqe] at hqs
                  exact hps hqs
                · exact absurd heqid
                    (hB q hq p hp' hk hqid (heqid ▸ hqid))
              refine ⟨p.2.arguments, ?_⟩
              rw [e1, hnil, String.append_empty]
              exact parseArgs_some_of_ne _ _ e5.symm hv
          · unfold textEndEvts at h
            split at h
            · simp only [List.mem_singleton] at h
              simp at h
            · simp at h
          · simp at h

end Groq

namespace Groq

/-- C3, witness: the amended theorem applied to the two-chunk stream of
the counterexample, whose deltas are consistently identified and whose
finish signal sits in the last chunk. -/
theorem toolCallEnd_input_parses_witness :
    ∃ pre, jsonParse (pre ++ argsDeltaConcat
      (chatStream Pex (VendorBehavior.stream
        [chunkToolFragEarly, chunkToolFragLate] none)) "call1") =
      some (Json.obj [("a", Json.num "1")]) :=
  toolCallEnd_input_parses_from_args_deltas Pex
    [chunkToolFragEarly, chunkToolFragLate] chunkToolFragLate
    (by unfold ConsistentIds; decide) rfl rfl
    "call1" "f" "g" 42 (Json.obj [("a", Json.num "1")])
    (by
      rw [show chatStream Pex (VendorBehavior.stream
          [chunkToolFragEarly, chunkToolFragLate] none) =
        [Evt.runStarted "run-1" "g" 42,
          Evt.toolCallStart "call1" "f" "g" 42 0,
          Evt.toolCallArgs "call1" "g" 42 ":1\x7d",
          Evt.toolCallEnd "call1" "f" "g" 42
            (Json.obj [("a", Json.num "1")]),
          Evt.runFinished "run-1" "g" 42 none CanonReason.tool_calls]
        from rfl]
      exact List.mem_cons_of_mem _ (List.mem_cons_of_mem _
        (List.mem_cons_of_mem _ (List.mem_cons_self _ _))))
    (by simp)

end Groq
